import Mathlib

set_option maxHeartbeats 1000000
set_option maxRecDepth 8000

namespace ObsidianWp

/-! # Shallow embedding of the obsidian-wordpress content pipeline

Part A embeds the markdown-it inline plugin for the embed syntax
(reference name plus pipe-delimited options) and its renderer rule.
Part B embeds the block segmenter of the WordPress client
(convertToWordPressBlocks / splitContentIntoBlocks and the callout
extractor).  Strings are represented as lists of characters; JavaScript
regular-expression behaviour is translated into explicit scanning
functions, and each translation follows the concrete backtracking
behaviour of the original pattern.  Math.random() is modelled as two
injected streams (numeric and string-valued) consumed through an
explicit counter. -/

/-- Character-list strings used throughout the embedding. -/
abbrev Str := List Char

/-- Coerce a Lean string literal into the character-list representation. -/
def strL (s : String) : Str := s.data

/-- Whitespace test mirroring the characters relevant to the JS patterns
in this code base (space, tab, newline, carriage return). -/
def isWsChar (c : Char) : Bool := c = ' ' ∨ c = '\t' ∨ c = '\n' ∨ c = '\r'

/-- Decimal digit test, mirroring the d character class. -/
def isDigitChar (c : Char) : Bool := '0' ≤ c ∧ c ≤ '9'

/-- Word-character test mirroring the w class used by word boundaries. -/
def isWordChar (c : Char) : Bool :=
  ('a' ≤ c ∧ c ≤ 'z') ∨ ('A' ≤ c ∧ c ≤ 'Z') ∨ ('0' ≤ c ∧ c ≤ '9') ∨ c = '_'

/-- ASCII lower-casing, mirroring String.prototype.toLowerCase on the
characters the callout patterns can match. -/
def toLowerChar (c : Char) : Char :=
  if 'A' ≤ c ∧ c ≤ 'Z' then Char.ofNat (c.toNat + 32) else c

/-- ASCII upper-casing of one character (String.prototype.toUpperCase). -/
def toUpperChar (c : Char) : Char :=
  if 'a' ≤ c ∧ c ≤ 'z' then Char.ofNat (c.toNat - 32) else c

/-- Trim ASCII whitespace from both ends (String.prototype.trim). -/
def trimWs (s : Str) : Str :=
  ((s.dropWhile isWsChar).reverse.dropWhile isWsChar).reverse

/-- Substring test: does s contain pat as a contiguous substring. -/
def containsSub (s pat : Str) : Bool :=
  if pat.isPrefixOf s then true
  else
    match s with
    | [] => false
    | _ :: t => containsSub t pat

/-! ## Part A: the embed-syntax plugin (markdown-it inline rule) -/

/-- Characters admitted by the character class of the embed pattern:
anything except a pipe, a closing bracket, or a newline. -/
def embedNameChar (c : Char) : Bool := ¬(c = '|' ∨ c = ']' ∨ c = '\n')

/-- Greedy parse of the pipe-delimited option groups of the embed
pattern: each group is a pipe followed by one or more name characters.
Returns the groups and the unconsumed remainder.  Structural recursion
on a fuel bounded below by the input length keeps the definition
kernel-reducible. -/
def parseOptGroupsF (fuel : Nat) (s : Str) : List Str × Str :=
  match fuel, s with
  | fuel + 1, '|' :: t =>
    let o := t.takeWhile embedNameChar
    if o.isEmpty then ([], '|' :: t)
    else
      let (os, r) := parseOptGroupsF fuel (t.drop o.length)
      (o :: os, r)
  | _, s => ([], s)

/-- Option groups of the embed pattern, with sufficient fuel. -/
def parseOptGroups (s : Str) : List Str × Str := parseOptGroupsF s.length s

/-- The anchored embed match of the inline rule: bang, double open
bracket, a nonempty reference name, optional pipe-delimited option
groups, double close bracket.  Returns the name, options, and the
length of the full matched text (the scan-cursor advance). -/
def obImgParse (s : Str) : Option (Str × List Str × Nat) :=
  if (strL "![[").isPrefixOf s then
    let t := s.drop 3
    let nm := t.takeWhile embedNameChar
    if nm.isEmpty then none
    else
      let (os, r) := parseOptGroups (t.drop nm.length)
      if (strL "]]").isPrefixOf r then
        some (nm, os, s.length - (r.length - 2))
      else none
  else none

/-- The mutable width/height/align slots filled while the options are
classified. -/
structure ImgOpts where
  width : Option Str
  height : Option Str
  align : Option Str
deriving DecidableEq, Repr

/-- An option exactly equal to center, left or right. -/
def isAlignKeyword (o : Str) : Bool :=
  o = strL "center" ∨ o = strL "left" ∨ o = strL "right"

/-- An option consisting of one or more digits. -/
def isAllDigits (o : Str) : Bool := ¬o.isEmpty ∧ o.all isDigitChar

/-- Leading digit run of an option (the width part of a WxH option). -/
def wxhWidth (o : Str) : Str := o.takeWhile isDigitChar

/-- Remainder of an option after its leading digit run. -/
def wxhRest (o : Str) : Str := o.drop (o.takeWhile isDigitChar).length

/-- Test for the digits-x-digits option shape. -/
def isWxH (o : Str) : Bool :=
  !(wxhWidth o).isEmpty &&
    (match wxhRest o with
     | 'x' :: h => !h.isEmpty && h.all isDigitChar
     | _ => false)

/-- The height part of a WxH option (second component of split on x). -/
def wxhHeight (o : Str) : Str := (wxhRest o).drop 1

/-- One step of the option-classification forEach: alignment keyword
sets align, digits-x-digits sets width and height, all-digits sets
width, anything else is ignored. -/
def applyOption (st : ImgOpts) (o : Str) : ImgOpts :=
  if isAlignKeyword o then { st with align := some o }
  else if isWxH o then { st with width := some (wxhWidth o), height := some (wxhHeight o) }
  else if isAllDigits o then { st with width := some o }
  else st

/-- Left-to-right classification of the option list. -/
def processOptions (opts : List Str) : ImgOpts :=
  opts.foldl applyOption ⟨none, none, none⟩

/-- Helper building the optional attribute pushes of the token. -/
def optAttr (k : Str) : Option Str → List (Str × Str)
  | some v => [(k, v)]
  | none => []

/-- The attrs array of the emitted token: src first, then width, height
and align in this order whenever each is set. -/
def tokenAttrsOf (src : Str) (opts : List Str) : List (Str × Str) :=
  let st := processOptions opts
  (strL "src", src) ::
    (optAttr (strL "width") st.width ++ optAttr (strL "height") st.height ++
      optAttr (strL "align") st.align)

/-- The argument object passed to the doWithImage extension callback:
the code reads the attrs array positionally at indices 0, 1 and 2. -/
def doWithImageArgs (attrs : List (Str × Str)) : Option Str × Option Str × Option Str :=
  ((attrs[0]?).map Prod.snd, (attrs[1]?).map Prod.snd, (attrs[2]?).map Prod.snd)

/-- The callback arguments produced for an embed matched at the scan
position (none when the pattern does not match there). -/
def callbackArgsAt (s : Str) : Option (Option Str × Option Str × Option Str) :=
  (obImgParse s).map (fun p => doWithImageArgs (tokenAttrsOf p.1 p.2.1))

/-- JS template-literal interpolation of a possibly-undefined value:
undefined prints as the literal text undefined. -/
def jsTemplate : Option Str → Str
  | some v => v
  | none => strL "undefined"

/-- Attribute lookup by name used by the renderer rule. -/
def findAttr (attrs : List (Str × Str)) (k : Str) : Option Str :=
  (attrs.find? (fun a => a.1 = k)).map Prod.snd

/-- The renderer rule for the embed token: align produces a figure with
inline pixel style, otherwise width and height (or width alone) become
img attributes, otherwise a bare img; alt is always empty. -/
def renderObImg (attrs : List (Str × Str)) : Str :=
  let src := (attrs[0]?).map Prod.snd
  let width := findAttr attrs (strL "width")
  let height := findAttr attrs (strL "height")
  let align := findAttr attrs (strL "align")
  let style :=
    (match width with | some w => strL "width:" ++ w ++ strL "px;" | none => []) ++
    (match height with | some h => strL "height:" ++ h ++ strL "px;" | none => [])
  let alignClass :=
    if align = some (strL "center") then strL " aligncenter"
    else if align = some (strL "left") then strL " alignleft"
    else if align = some (strL "right") then strL " alignright"
    else []
  if align.isSome then
    strL "<figure class=\"wp-block-image " ++ alignClass ++ strL "\"><img src=\"" ++
      jsTemplate src ++ strL "\" style=\"" ++ style ++ strL "\" alt=\"\"/></figure>"
  else if width.isSome then
    if height.isSome then
      strL "<img src=\"" ++ jsTemplate src ++ strL "\" width=\"" ++ jsTemplate width ++
        strL "\" height=\"" ++ jsTemplate height ++ strL "\" alt=\"\">"
    else
      strL "<img src=\"" ++ jsTemplate src ++ strL "\" width=\"" ++ jsTemplate width ++
        strL "\" alt=\"\">"
  else
    strL "<img src=\"" ++ jsTemplate src ++ strL "\" alt=\"\">"

/-! Specification-side descriptions used to state the claims about the
option classification and the renderer. -/

/-- A size option: either the WxH shape or the all-digits shape. -/
def isSizeOption (o : Str) : Bool := isWxH o ∨ isAllDigits o

/-- The last alignment keyword of an option list. -/
def lastAlignOf (opts : List Str) : Option Str := (opts.filter isAlignKeyword).getLast?

/-- The width resulting from the last size option of the list. -/
def specWidth (opts : List Str) : Option Str :=
  ((opts.filter isSizeOption).getLast?).map (fun o => if isWxH o then wxhWidth o else o)

/-- The height resulting from the last WxH option of the list. -/
def specHeight (opts : List Str) : Option Str :=
  ((opts.filter isWxH).getLast?).map wxhHeight

/-- Alignment values as a closed enumeration (specification side). -/
inductive AlignKw
  | center
  | left
  | right
deriving DecidableEq

/-- String carried by an alignment keyword. -/
def alignStrOf : AlignKw → Str
  | .center => strL "center"
  | .left => strL "left"
  | .right => strL "right"

/-- Alignment class emitted by the renderer for each keyword. -/
def alignClassOf : AlignKw → Str
  | .center => strL " aligncenter"
  | .left => strL " alignleft"
  | .right => strL " alignright"

/-- Inline pixel style rendered for the optional width and height. -/
def pixelStyleOf (w h : Option Str) : Str :=
  (match w with | some ws => strL "width:" ++ ws ++ strL "px;" | none => []) ++
  (match h with | some hs => strL "height:" ++ hs ++ strL "px;" | none => [])

/-- Attrs array of a parser-shaped token: src always present, width,
height and align present exactly when set. -/
def mkTokenAttrs (src : Str) (w h : Option Str) (al : Option AlignKw) : List (Str × Str) :=
  (strL "src", src) ::
    (optAttr (strL "width") w ++ optAttr (strL "height") h ++
      optAttr (strL "align") (al.map alignStrOf))

/-! ## Part B: the block segmenter (convertToWordPressBlocks) -/

/-- String.prototype.split on the newline character. -/
def splitNl : Str → List Str
  | [] => [[]]
  | c :: t =>
    if c = '\n' then [] :: splitNl t
    else
      match splitNl t with
      | h :: r => (c :: h) :: r
      | [] => [[c]]

/-- Heading-level digit class of the heading pattern. -/
def headingDigit (c : Char) : Bool := '1' ≤ c ∧ c ≤ '6'

/-- The anchored single-line heading match: open tag with a level digit,
arbitrary content, matching close tag at the end of the line.  Returns
the level digit and the inner content. -/
def headingMatch (l : Str) : Option (Char × Str) :=
  match l with
  | '<' :: 'h' :: d :: '>' :: rest =>
    if headingDigit d && (strL "</h" ++ [d] ++ strL ">").isSuffixOf rest then
      some (d, rest.take (rest.length - 5))
    else none
  | _ => none

/-- The anchored horizontal-rule line: hr tag, optional whitespace,
optional self-closing slash. -/
def hrMatch (l : Str) : Bool :=
  (strL "<hr").isPrefixOf l &&
    (match (l.drop 3).dropWhile isWsChar with
     | ['>'] => true
     | ['/', '>'] => true
     | _ => false)

/-- The anchored line-break line: br tag, optional whitespace, optional
self-closing slash. -/
def brMatch (l : Str) : Bool :=
  (strL "<br").isPrefixOf l &&
    (match (l.drop 3).dropWhile isWsChar with
     | ['>'] => true
     | ['/', '>'] => true
     | _ => false)

/-- The anchored single-line paragraph match; returns the interior. -/
def paraMatch (l : Str) : Option Str :=
  if (strL "<p>").isPrefixOf l && (strL "</p>").isSuffixOf l && decide (7 ≤ l.length) then
    some ((l.drop 3).take (l.length - 7))
  else none

/-- Inner loop of the multi-line collectors for table, list and quote
constructs: each consumed line is appended to the accumulator, the loop
stops after the line containing the close tag, and a newline separator
is appended only after lines past the first that do not contain the
close tag (reproducing the accumulation order of the source loop). -/
def spanGo (close : Str) (acc : Str) : List Str → Str × List Str
  | [] => (acc, [])
  | l :: ls =>
    let acc2 := acc ++ l
    if containsSub l close then (acc2, ls)
    else spanGo close (acc2 ++ ['\n']) ls

/-- Multi-line collection starting at the opening line. -/
def consumeSpan (close : Str) (first : Str) (rest : List Str) : Str × List Str :=
  if containsSub first close then (first, rest)
  else spanGo close first rest

/-- The code-block collector: lines are gathered until the line
containing the pre close tag, which is itself excluded (the loop breaks
before pushing it). -/
def preGo : List Str → List Str × List Str
  | [] => ([], [])
  | l :: ls =>
    if containsSub l (strL "</pre>") then ([], ls)
    else
      let (cl, r) := preGo ls
      (l :: cl, r)

/-- Length of a pre or code tag at the head of the string (the tag
removal pattern of the code branch: open or close tag whose name starts
with pre or code, through the next closing angle bracket). -/
def preCodeTagLen (s : Str) : Option Nat :=
  match s with
  | '<' :: t =>
    let slash : Nat := match t with | '/' :: _ => 1 | _ => 0
    let u := match t with | '/' :: u => u | _ => t
    if (strL "pre").isPrefixOf u || (strL "code").isPrefixOf u then
      let w := u.takeWhile (fun ch => ¬(ch = '>'))
      match u.drop w.length with
      | '>' :: _ => some (1 + slash + w.length + 1)
      | _ => none
    else none
  | _ => none

/-- Global removal of pre and code tags (fuel-structured scan). -/
def removePreCodeTagsF : Nat → Str → Str
  | _, [] => []
  | 0, s => s
  | fuel + 1, ch :: t =>
    match preCodeTagLen (ch :: t) with
    | some n => removePreCodeTagsF fuel ((ch :: t).drop n)
    | none => ch :: removePreCodeTagsF fuel t

/-- Global removal of pre and code tags. -/
def removePreCodeTags (s : Str) : Str := removePreCodeTagsF s.length s

/-- Global removal of the literal blockquote open and close tags. -/
def removeBqTagsF : Nat → Str → Str
  | _, [] => []
  | 0, s => s
  | fuel + 1, ch :: t =>
    if (strL "<blockquote>").isPrefixOf (ch :: t) then removeBqTagsF fuel ((ch :: t).drop 12)
    else if (strL "</blockquote>").isPrefixOf (ch :: t) then
      removeBqTagsF fuel ((ch :: t).drop 13)
    else ch :: removeBqTagsF fuel t

/-- Global removal of the literal blockquote open and close tags. -/
def removeBqTags (s : Str) : Str := removeBqTagsF s.length s

/-- Global removal of the literal paragraph open and close tags. -/
def removePTagsF : Nat → Str → Str
  | _, [] => []
  | 0, s => s
  | fuel + 1, ch :: t =>
    if (strL "<p>").isPrefixOf (ch :: t) then removePTagsF fuel ((ch :: t).drop 3)
    else if (strL "</p>").isPrefixOf (ch :: t) then removePTagsF fuel ((ch :: t).drop 4)
    else ch :: removePTagsF fuel t

/-- Global removal of the literal paragraph open and close tags. -/
def removePTags (s : Str) : Str := removePTagsF s.length s

/-- Inline tag names kept by the fallback stripper. -/
def allowedTagNames : List Str :=
  [strL "code", strL "strong", strL "em", strL "b", strL "i"]

/-- The negative lookahead of the fallback stripper: after the angle
bracket and an optional slash, one of the allow-listed names followed
by a word boundary. -/
def allowedLookahead (t : Str) : Bool :=
  let u := match t with | '/' :: u => u | _ => t
  allowedTagNames.any (fun n =>
    n.isPrefixOf u &&
      (match u.drop n.length with
       | [] => true
       | ch :: _ => ¬isWordChar ch))

/-- Length of a strippable tag at the head of the string: an angle
bracket not followed by an allow-listed name, through the next closing
angle bracket. -/
def tagRemLen (s : Str) : Option Nat :=
  match s with
  | '<' :: t =>
    if allowedLookahead t then none
    else
      let w := t.takeWhile (fun ch => ¬(ch = '>'))
      match t.drop w.length with
      | '>' :: _ => some (1 + w.length + 1)
      | _ => none
  | _ => none

/-- Fallback stripping of all tags except the inline allow-list. -/
def stripTagsF : Nat → Str → Str
  | _, [] => []
  | 0, s => s
  | fuel + 1, ch :: t =>
    match tagRemLen (ch :: t) with
    | some n => stripTagsF fuel ((ch :: t).drop n)
    | none => ch :: stripTagsF fuel t

/-- Fallback stripping of all tags except the inline allow-list. -/
def stripDisallowedTags (s : Str) : Str := stripTagsF s.length s

/-- The image-only paragraph test: optional whitespace, an img tag with
at least one whitespace after the name, the attribute text up to the
closing angle bracket, then only trailing whitespace.  Returns the
captured attribute text. -/
def imgTagMatch (content : Str) : Option Str :=
  let a := content.dropWhile isWsChar
  if (strL "<img").isPrefixOf a then
    let b := a.drop 4
    let ws1 := b.takeWhile isWsChar
    if ws1.isEmpty then none
    else
      let rest := b.drop ws1.length
      let x := rest.takeWhile (fun ch => ¬(ch = '>'))
      match rest.drop x.length with
      | '>' :: tail => if tail.all isWsChar then some x else none
      | _ => none
  else none

/-- Leftmost capture of a quoted attribute value: the pattern text
followed by any characters up to the next double quote. -/
def attrCapture (pat : Str) (s : Str) : Option Str :=
  if pat.isPrefixOf s then
    let rest := s.drop pat.length
    let cap := rest.takeWhile (fun ch => ¬(ch = '"'))
    match rest.drop cap.length with
    | '"' :: _ => some cap
    | _ =>
      match s with
      | [] => none
      | _ :: t => attrCapture pat t
  else
    match s with
    | [] => none
    | _ :: t => attrCapture pat t

/-- The sixteen-plus callout kinds, in the alternation order of the
detection pattern. -/
def calloutKinds : List Str :=
  [strL "info", strL "warning", strL "note", strL "tip", strL "caution", strL "danger",
   strL "success", strL "failure", strL "bug", strL "example", strL "quote", strL "cite",
   strL "abstract", strL "summary", strL "tldr", strL "info+", strL "question",
   strL "help", strL "faq", strL "error"]

/-- Case-insensitive match of a kind keyword followed by the closing
bracket of the marker. -/
def ciThenClose : Str → Str → Bool
  | [], s => s.head? = some ']'
  | _ :: _, [] => false
  | p :: ps, c :: cs => toLowerChar c = p && ciThenClose ps cs

/-- The callout marker test at the head of the string: open bracket,
bang, then the first kind of the alternation that is followed by the
closing bracket. -/
def markerKindAt (s : Str) : Option Str :=
  match s with
  | '[' :: '!' :: t => calloutKinds.find? (fun k => ciThenClose k t)
  | _ => none

/-- Leftmost callout marker of the content: position of its open
bracket and the lower-cased kind keyword. -/
def calloutSearch : Str → Option (Nat × Str)
  | [] => none
  | c :: t =>
    match markerKindAt (c :: t) with
    | some k => some (0, k)
    | none => (calloutSearch t).map (fun p => (p.1 + 1, p.2))

/-- Detection of the callout syntax anywhere in the content. -/
def hasCalloutSyntax (content : Str) : Bool := (calloutSearch content).isSome

/-- First character upper-cased, rest unchanged. -/
def capitalizeStr : Str → Str
  | [] => []
  | c :: t => toUpperChar c :: t

/-- The block serializer: typed open comment with the attribute payload,
the body on its own lines, typed close comment. -/
def createWpBlock (blockType content attributes : Str) : Str :=
  strL "<!-- wp:" ++ blockType ++ attributes ++ strL " -->\n" ++ content ++
    strL "\n<!-- /wp:" ++ blockType ++ strL " -->"

/-- Paragraph block built from residual text. -/
def createParagraphBlock (text : Str) : Str :=
  strL "<!-- wp:paragraph -->\n<p>" ++ text ++ strL "</p>\n<!-- /wp:paragraph -->"

/-- Replace the first occurrence of a literal pattern. -/
def replaceFirstF : Nat → Str → Str → Str → Str
  | _, [], _, _ => []
  | 0, s, _, _ => s
  | fuel + 1, ch :: t, pat, rep =>
    if pat.isPrefixOf (ch :: t) then rep ++ (ch :: t).drop pat.length
    else ch :: replaceFirstF fuel t pat rep

/-- Replace the first occurrence of a literal pattern. -/
def replaceFirst (s pat rep : Str) : Str := replaceFirstF s.length s pat rep

/-- The table shell: the first table open tag is wrapped in a styled
figure, the first table close tag is extended with the figure close.
The header and footer flags are computed by the caller but do not alter
the output. -/
def formatTableContent (tableContent : Str) (_hasHead _hasFoot : Bool) : Str :=
  replaceFirst
    (replaceFirst tableContent (strL "<table>")
      (strL "<figure class=\"wp-block-table is-style-regular\"><table class=\"has-fixed-layout\">"))
    (strL "</table>") (strL "</table></figure>")

/-- Decimal rendering of the synthesized numeric id. -/
def natToStr (n : Nat) : Str := (Nat.repr n).data

/-- The callout extractor: on a marker match, the title is the text
captured after the marker (whitespace skipped greedily, capture up to
the end of that line), defaulting to the capitalized kind when the
capture is empty; the body is the content with the matched span removed
and paragraph tags stripped; the kind collapses to one of four alert
categories.  One random draw feeds the uniqueId. -/
def processCalloutContentSimple (ruid : Nat → Str) (content : Str) (c : Nat) :
    Option Str × Nat :=
  match calloutSearch content with
  | none => (none, c)
  | some (pos, k) =>
    let afterMarker := content.drop (pos + 2 + k.length + 1)
    let ws := afterMarker.takeWhile isWsChar
    let captured := (afterMarker.drop ws.length).takeWhile (fun ch => ¬(ch = '\n'))
    let calloutTitle := if captured.isEmpty then capitalizeStr k else trimWs captured
    let removedLen := 2 + k.length + 1 + ws.length + captured.length
    let calloutContent :=
      trimWs (removePTags (content.take pos ++ content.drop (pos + removedLen)))
    let alertType :=
      if k = strL "warning" ∨ k = strL "caution" ∨ k = strL "danger" then strL "warning"
      else if k = strL "success" then strL "success"
      else if k = strL "error" ∨ k = strL "failure" then strL "error"
      else strL "info"
    let alertContent :=
      strL "<!-- wp:paragraph \x7b\"placeholder\":\"\"\x7d -->\n  \"" ++ calloutContent ++
        strL "\"\n  <!-- /wp:paragraph -->"
    let alertAttributes :=
      strL " \x7b\"alertType\":\"" ++ alertType ++ strL "\",\"alertTitle\":\"" ++
        calloutTitle ++
        strL "\",\"maximumWidthUnit\":\"%\",\"maximumWidth\":\"100\",\"baseFontSize\":13,\"variant\":\"left-accent\",\"uniqueId\":\"alerts-dlx-" ++
        ruid c ++ strL "\",\"className\":\"is-style-" ++ alertType ++ strL "\"\x7d"
    (some (createWpBlock (strL "mediaron/alerts-dlx-chakra") alertContent alertAttributes),
      c + 1)

/-- The paragraph branch after the image-only test: callout contents
become one alert block, anything else a plain paragraph block. -/
def paragraphBranch (ruid : Nat → Str) (content : Str) (c : Nat) : List Str × Nat :=
  if hasCalloutSyntax content then
    let (ob, c2) := processCalloutContentSimple ruid content c
    (ob.toList, c2)
  else
    ([createWpBlock (strL "paragraph") (strL "<p>" ++ content ++ strL "</p>") []], c)

/-- Fixed separator markup of the horizontal-rule branch. -/
def hrContentStr : Str :=
  strL "<hr class=\"wp-block-separator has-text-color has-alpha-channel-opacity has-background is-style-wide\" style=\"margin-top:var(--wp--preset--spacing--50);margin-bottom:var(--wp--preset--spacing--50);background-color:#ececec;color:#ececec\"/>"

/-- Fixed separator attributes of the horizontal-rule branch. -/
def hrAttrStr : Str :=
  strL " \x7b\"className\":\"is-style-wide\",\"style\":\x7b\"spacing\":\x7b\"margin\":\x7b\"top\":\"var:preset|spacing|50\",\"bottom\":\"var:preset|spacing|50\"\x7d\x7d,\"color\":\x7b\"background\":\"#ececec\"\x7d\x7d\x7d"

/-- Fixed table attributes. -/
def tableAttrStr : Str := strL " \x7b\"hasFixedLayout\":true,\"className\":\"is-style-regular\"\x7d"

/-- Fixed spacer markup of the line-break branch. -/
def spacerContentStr : Str :=
  strL "<div style=\"height:50px\" aria-hidden=\"true\" class=\"wp-block-spacer\"></div>"

/-- The line loop of splitContentIntoBlocks: ordered pattern checks per
line, first match wins; multi-line rules consume through their closing
line; the final fallback strips disallowed tags and emits a paragraph
when the residue is nonempty.  The fuel is the number of lines, which
bounds the iteration count since every step consumes at least one
line. -/
def splitGoF (rid : Nat → Nat) (ruid : Nat → Str) :
    Nat → List Str → Nat → List Str × Nat
  | _, [], c => ([], c)
  | 0, _ :: _, c => ([], c)
  | fuel + 1, l :: ls, c =>
    match headingMatch l with
    | some (d, content) =>
      let levelAttr :=
        if ¬(d = '2') then strL " \x7b\"level\":" ++ [d] ++ strL "\x7d" else []
      let b := createWpBlock (strL "heading")
        (strL "<h" ++ [d] ++ strL ">" ++ content ++ strL "</h" ++ [d] ++ strL ">") levelAttr
      let (bs, c2) := splitGoF rid ruid fuel ls c
      (b :: bs, c2)
    | none =>
    if hrMatch l then
      let b := createWpBlock (strL "separator") hrContentStr hrAttrStr
      let (bs, c2) := splitGoF rid ruid fuel ls c
      (b :: bs, c2)
    else if (strL "<table>").isPrefixOf l then
      let (tc, rest) := consumeSpan (strL "</table>") l ls
      let b := createWpBlock (strL "table")
        (formatTableContent tc (containsSub tc (strL "<thead>"))
          (containsSub tc (strL "<tfoot>"))) tableAttrStr
      let (bs, c2) := splitGoF rid ruid fuel rest c
      (b :: bs, c2)
    else if (strL "<pre>").isPrefixOf l then
      let (cl, rest) := preGo (l :: ls)
      let codeContent := removePreCodeTags (List.intercalate (strL "\n") cl)
      let b := createWpBlock (strL "code")
        (strL "<pre class=\"wp-block-code\"><code>" ++ codeContent ++ strL "</code></pre>") []
      let (bs, c2) := splitGoF rid ruid fuel rest c
      (b :: bs, c2)
    else if (strL "<ul>").isPrefixOf l then
      let (lc, rest) := consumeSpan (strL "</ul>") l ls
      let b := createWpBlock (strL "list") lc []
      let (bs, c2) := splitGoF rid ruid fuel rest c
      (b :: bs, c2)
    else if (strL "<ol>").isPrefixOf l then
      let (lc, rest) := consumeSpan (strL "</ol>") l ls
      let b := createWpBlock (strL "list") lc (strL " \x7b\"ordered\":true\x7d")
      let (bs, c2) := splitGoF rid ruid fuel rest c
      (b :: bs, c2)
    else if (strL "<blockquote>").isPrefixOf l then
      let (qc, rest) := consumeSpan (strL "</blockquote>") l ls
      let innerContent := trimWs (removeBqTags qc)
      if hasCalloutSyntax innerContent then
        let (ob, c2) := processCalloutContentSimple ruid innerContent c
        let (bs, c3) := splitGoF rid ruid fuel rest c2
        (ob.toList ++ bs, c3)
      else
        let b := createWpBlock (strL "quote")
          (strL "<blockquote class=\"wp-block-quote\">" ++ innerContent ++
            strL "</blockquote>") []
        let (bs, c2) := splitGoF rid ruid fuel rest c
        (b :: bs, c2)
    else
      match paraMatch l with
      | some content =>
        match imgTagMatch content with
        | some imgAttrs =>
          match attrCapture (strL "src=\"") imgAttrs with
          | some imgSrc =>
            let imgAlt := (attrCapture (strL "alt=\"") imgAttrs).getD []
            let tempId := rid c % 1000 + 600
            let imageContent :=
              strL "<figure class=\"wp-block-image aligncenter size-large\"><img src=\"" ++
                imgSrc ++ strL "\" alt=\"" ++ imgAlt ++ strL "\" class=\"wp-image-" ++
                natToStr tempId ++ strL "\"/></figure>"
            let imageAttributes :=
              strL " \x7b\"id\":" ++ natToStr tempId ++
                strL ",\"sizeSlug\":\"large\",\"linkDestination\":\"none\",\"align\":\"center\"\x7d"
            let b := createWpBlock (strL "image") imageContent imageAttributes
            let (bs, c2) := splitGoF rid ruid fuel ls (c + 1)
            (b :: bs, c2)
          | none =>
            let (pbs, c2) := paragraphBranch ruid content c
            let (bs, c3) := splitGoF rid ruid fuel ls c2
            (pbs ++ bs, c3)
        | none =>
          let (pbs, c2) := paragraphBranch ruid content c
          let (bs, c3) := splitGoF rid ruid fuel ls c2
          (pbs ++ bs, c3)
      | none =>
      if brMatch l then
        let b := createWpBlock (strL "spacer") spacerContentStr (strL " \x7b\"height\":\"50px\"\x7d")
        let (bs, c2) := splitGoF rid ruid fuel ls c
        (b :: bs, c2)
      else
        let textContent := trimWs (stripDisallowedTags l)
        let (bs, c2) := splitGoF rid ruid fuel ls c
        if textContent.isEmpty then (bs, c2)
        else (createParagraphBlock textContent :: bs, c2)

/-- splitContentIntoBlocks: split the HTML into lines and run the
ordered line rules. -/
def splitContentIntoBlocks (rid : Nat → Nat) (ruid : Nat → Str) (html : Str) (c : Nat) :
    List Str × Nat :=
  let htmlLines := splitNl html
  splitGoF rid ruid htmlLines.length htmlLines c

/-- Lazy scan for the comment-closing arrow on the same line: length
consumed through the arrow, failing at a newline or the end. -/
def arrowLen (s : Str) : Option Nat :=
  if (strL "-->").isPrefixOf s then some 3
  else
    match s with
    | [] => none
    | c :: t => if c = '\n' then none else (arrowLen t).map (· + 1)

/-- Length of a block close marker at the head: the close comment
opener followed by lazy non-newline characters through the arrow. -/
def closeMarkerLen (s : Str) : Option Nat :=
  if (strL "<!-- /wp:").isPrefixOf s then (arrowLen (s.drop 9)).map (9 + ·) else none

/-- Lazy scan of the block body for the first close marker; any
character may be consumed. -/
def closeScan : Str → Option Nat
  | [] => none
  | c :: t =>
    match closeMarkerLen (c :: t) with
    | some n => some n
    | none => (closeScan t).map (· + 1)

/-- Length of a full pre-existing block match at the head of the
string: open marker (lazy non-newline through the arrow), lazy body,
close marker. -/
def blockMatchLen (s : Str) : Option Nat :=
  if (strL "<!-- wp:").isPrefixOf s then
    match arrowLen (s.drop 8) with
    | some a =>
      match closeScan (s.drop (8 + a)) with
      | some b => some (8 + a + b)
      | none => none
    | none => none
  else none

/-- Leftmost block match: characters skipped and match length. -/
def findBlockMatch : Str → Option (Nat × Nat)
  | [] => none
  | c :: t =>
    match blockMatchLen (c :: t) with
    | some n => some (0, n)
    | none => (findBlockMatch t).map (fun p => (p.1 + 1, p.2))

/-- The global exec loop of the block pattern: successive leftmost
matches, each yielding the preceding gap and the matched block;
returns the pieces and the trailing remainder. -/
def execPiecesF : Nat → Str → List (Str × Str) × Str
  | 0, s => ([], s)
  | fuel + 1, s =>
    match findBlockMatch s with
    | none => ([], s)
    | some (sk, n) =>
      let gap := s.take sk
      let blk := (s.drop sk).take n
      let (ps, tr) := execPiecesF fuel (s.drop (sk + n))
      ((gap, blk) :: ps, tr)

/-- The global exec loop with sufficient fuel. -/
def execPieces (s : Str) : List (Str × Str) × Str := execPiecesF (s.length + 1) s

/-- Gap handling between preserved blocks: trim, skip when empty,
otherwise segment the trimmed text. -/
def gapBlocksOf (rid : Nat → Nat) (ruid : Nat → Str) (gap : Str) (c : Nat) :
    List Str × Nat :=
  let g := trimWs gap
  if g.isEmpty then ([], c) else splitContentIntoBlocks rid ruid g c

/-- Assembly of the preserved blocks and segmented gaps in document
order. -/
def convertPiecesGo (rid : Nat → Nat) (ruid : Nat → Str) :
    List (Str × Str) → Str → Nat → List Str × Nat
  | [], tr, c => gapBlocksOf rid ruid tr c
  | (gap, blk) :: ps, tr, c =>
    let (gbs, c2) := gapBlocksOf rid ruid gap c
    let (rest, c3) := convertPiecesGo rid ruid ps tr c2
    (gbs ++ blk :: rest, c3)

/-- convertToWordPressBlocks as a block list: when no pre-existing
block matches, the whole input is segmented; otherwise preserved blocks
are kept verbatim and interleaved with the segmented gaps. -/
def convertToWordPressBlocksList (rid : Nat → Nat) (ruid : Nat → Str) (html : Str)
    (c : Nat) : List Str × Nat :=
  match execPieces html with
  | ([], _) => splitContentIntoBlocks rid ruid html c
  | (ps, tr) => convertPiecesGo rid ruid ps tr c

/-- convertToWordPressBlocks: the assembled block list joined by blank
lines. -/
def convertToWordPressBlocks (rid : Nat → Nat) (ruid : Nat → Str) (html : Str)
    (c : Nat) : Str :=
  List.intercalate (strL "\n\n") (convertToWordPressBlocksList rid ruid html c).1

/-! Specification-side descriptions for the preserved-block claims. -/

/-- A pre-existing block in target format: typed open comment marker
(whose tag text stays on one line and holds no arrow), a body free of
close-marker text, and a matching close comment marker.  This is the
well-formedness the spec data model demands of a ContentBlock: the body
carries no unescaped block delimiter of a different logical block. -/
def WfBlock (B : Str) : Prop :=
  ∃ topen body u,
    B = strL "<!-- wp:" ++ topen ++ strL "-->" ++ body ++ strL "<!-- /wp:" ++ u ++
      strL "-->" ∧
    (∀ c ∈ topen, ¬(c = '\n')) ∧ containsSub topen (strL "-->") = false ∧
    containsSub body (strL "<!-- /wp:") = false ∧
    (∀ c ∈ u, ¬(c = '\n')) ∧ containsSub u (strL "-->") = false

/-- A raw region that holds no block-open marker text. -/
def RawSafe (r : Str) : Prop := containsSub r (strL "<!-- wp:") = false

/-- A document assembled from a leading raw region followed by
alternating preserved blocks and raw regions, in document order. -/
def assembleSegs : Str → List (Str × Str) → Str
  | r0, [] => r0
  | r0, (B, r) :: ps => r0 ++ B ++ assembleSegs r ps

/-- The gap-and-block pieces the exec loop should recover from an
assembled document, with the trailing raw region. -/
def piecesOf : Str → List (Str × Str) → List (Str × Str) × Str
  | r0, [] => ([], r0)
  | r0, (B, r) :: ps =>
    let (q, tr) := piecesOf r ps
    ((r0, B) :: q, tr)

/-- The expected output of the whole converter on an assembled
document: for each segment in document order, the blocks segmented out
of the raw region followed by the preserved block kept verbatim. -/
def interleaveExpected (rid : Nat → Nat) (ruid : Nat → Str) :
    Str → List (Str × Str) → Nat → List Str × Nat
  | r, [], c => gapBlocksOf rid ruid r c
  | r, (B, r2) :: ps, c =>
    let (gbs, c2) := gapBlocksOf rid ruid r c
    let (rest, c3) := interleaveExpected rid ruid r2 ps c2
    (gbs ++ B :: rest, c3)

/-- The alternating-segment list of a sequence of blocks joined by
blank lines. -/
def interPs : List Str → List (Str × Str)
  | [] => []
  | [b] => [(b, [])]
  | b :: bs => (b, strL "\n\n") :: interPs bs

/-! Specification-side descriptions for the multi-line consumption
claims. -/

/-- The text accumulated by the multi-line collectors when the closing
tag never appears: each remaining line followed by a newline (matching
the accumulation order of the source loop, which appends the separator
after every non-closing line past the first). -/
def spanToEnd (ls : List Str) : Str := (ls.map (fun x => x ++ ['\n'])).flatten

/-- Block-kind tests used to state which output blocks carry a value
drawn from the random source. -/
def isImageBlock (b : Str) : Bool := (strL "<!-- wp:image").isPrefixOf b

/-- Alert blocks carry a random uniqueId in their attributes. -/
def isAlertBlock (b : Str) : Bool :=
  (strL "<!-- wp:mediaron/alerts-dlx-chakra").isPrefixOf b

/-- Two output blocks agree up to randomness: equal outright, or both
image blocks, or both alert blocks. -/
def blockAgrees (b1 b2 : Str) : Prop :=
  b1 = b2 ∨ (isImageBlock b1 = true ∧ isImageBlock b2 = true) ∨
    (isAlertBlock b1 = true ∧ isAlertBlock b2 = true)

/-! Specification-side descriptions for the callout claims. -/

/-- The fixed kind-to-presentation-category mapping of the claim:
warning, caution and danger collapse to warning; success to success;
error and failure to error; every other kind to info. -/
def calloutCategoryOf (k : Str) : Str :=
  if k = strL "warning" ∨ k = strL "caution" ∨ k = strL "danger" then strL "warning"
  else if k = strL "success" then strL "success"
  else if k = strL "error" ∨ k = strL "failure" then strL "error"
  else strL "info"

/-- The serialized alert block carrying a category, title, body and
uniqueId. -/
def alertBlockOf (cat title body uid : Str) : Str :=
  createWpBlock (strL "mediaron/alerts-dlx-chakra")
    (strL "<!-- wp:paragraph \x7b\"placeholder\":\"\"\x7d -->\n  \"" ++ body ++
      strL "\"\n  <!-- /wp:paragraph -->")
    (strL " \x7b\"alertType\":\"" ++ cat ++ strL "\",\"alertTitle\":\"" ++ title ++
      strL "\",\"maximumWidthUnit\":\"%\",\"maximumWidth\":\"100\",\"baseFontSize\":13,\"variant\":\"left-accent\",\"uniqueId\":\"alerts-dlx-" ++
      uid ++ strL "\",\"className\":\"is-style-" ++ cat ++ strL "\"\x7d")

/-! ## Helper lemmas -/

theorem isPrefixOf_self_append (p y : Str) : p.isPrefixOf (p ++ y) = true := by
  induction p with
  | nil => simp [List.isPrefixOf]
  | cons c t ih => simp [List.isPrefixOf, ih]

theorem containsSub_here (s p : Str) (h : p.isPrefixOf s = true) : containsSub s p = true := by
  unfold containsSub
  simp [h]

theorem containsSub_append_left (x s p : Str) (h : containsSub s p = true) :
    containsSub (x ++ s) p = true := by
  induction x with
  | nil => simpa using h
  | cons c t ih =>
    unfold containsSub
    split
    · rfl
    · exact ih

theorem containsSub_mid (x p y : Str) : containsSub (x ++ (p ++ y)) p = true :=
  containsSub_append_left x _ p (containsSub_here _ p (isPrefixOf_self_append p y))

theorem isPrefixOf_head_ne {c d : Char} (p s : Str) (h : ¬(c = d)) :
    (c :: p).isPrefixOf (d :: s) = false := by
  simp [List.isPrefixOf, h]

theorem prefix_long (pat S z : Str) (h : pat.length ≤ S.length) :
    pat.isPrefixOf (S ++ z) = pat.isPrefixOf S := by
  induction pat generalizing S with
  | nil => simp [List.isPrefixOf]
  | cons a p ih =>
    cases S with
    | nil => simp at h
    | cons b S2 =>
      simp only [List.cons_append, List.isPrefixOf, List.append_eq]
      rw [ih S2 (by simpa using h)]

theorem prefix_split (pat S z : Str) (hlt : S.length < pat.length)
    (h : pat.isPrefixOf (S ++ z) = true) :
    S = pat.take S.length ∧ (pat.drop S.length).isPrefixOf z = true := by
  induction S generalizing pat with
  | nil => simpa using h
  | cons c S2 ih =>
    cases pat with
    | nil => simp at hlt
    | cons a p =>
      simp only [List.cons_append, List.isPrefixOf, Bool.and_eq_true, beq_iff_eq] at h
      obtain ⟨h1, h2⟩ := h
      obtain ⟨ih1, ih2⟩ := ih p (by simpa using hlt) h2
      subst h1
      exact ⟨by simpa using ih1, ih2⟩

theorem containsSub_false_drop {s pat : Str} (h : containsSub s pat = false) (i : Nat) :
    pat.isPrefixOf (s.drop i) = false := by
  induction s generalizing i with
  | nil =>
    unfold containsSub at h
    cases hp : pat.isPrefixOf ([] : Str) with
    | false => simpa using hp
    | true => simp [hp] at h
  | cons c t ih =>
    unfold containsSub at h
    cases hp : pat.isPrefixOf (c :: t) with
    | true => simp [hp] at h
    | false =>
      simp only [hp, if_false, Bool.false_eq_true] at h
      cases i with
      | zero => exact hp
      | succ i2 => exact ih h i2

theorem containsSub_cons_of (c : Char) (t pat : Str) (h : containsSub t pat = true) :
    containsSub (c :: t) pat = true := by
  unfold containsSub
  split
  · rfl
  · exact h

theorem len_dropWhile_le (p : Char → Bool) (l : Str) :
    (l.dropWhile p).length ≤ l.length :=
  (List.dropWhile_sublist p).length_le

theorem takeWhile_append_all {p : Char → Bool} (t z : Str) (h : ∀ x ∈ t, p x = true) :
    (t ++ z).takeWhile p = t ++ z.takeWhile p := by
  induction t with
  | nil => simp
  | cons c r ih =>
    have hc : p c = true := h c (by simp)
    simp only [List.cons_append, List.takeWhile_cons, hc, if_true]
    rw [ih (fun x hx => h x (by simp [hx]))]

theorem dropWhile_append_all {p : Char → Bool} (t z : Str) (h : ∀ x ∈ t, p x = true) :
    (t ++ z).dropWhile p = z.dropWhile p := by
  induction t with
  | nil => simp
  | cons c r ih =>
    have hc : p c = true := h c (by simp)
    simp only [List.cons_append, List.dropWhile_cons, hc, if_true]
    exact ih (fun x hx => h x (by simp [hx]))

theorem takeWhile_cons_neg {p : Char → Bool} (c : Char) (z : Str) (h : p c = false) :
    (c :: z).takeWhile p = [] := by
  simp [List.takeWhile_cons, h]

theorem dropWhile_len_eq {p : Char → Bool} (l : Str) (h : (l.dropWhile p).length = l.length) :
    l.dropWhile p = l := by
  cases l with
  | nil => rfl
  | cons c t =>
    cases hc : p c with
    | false => simp [List.dropWhile_cons, hc]
    | true =>
      exfalso
      have h2 : (List.dropWhile p t).length ≤ t.length := len_dropWhile_le p t
      simp [List.dropWhile_cons, hc] at h
      omega

theorem ltrim_of_trim_fix {b : Str} (h : trimWs b = b) : b.dropWhile isWsChar = b := by
  have hlen1 : (trimWs b).length ≤ (b.dropWhile isWsChar).length := by
    unfold trimWs
    calc (((b.dropWhile isWsChar).reverse.dropWhile isWsChar).reverse).length
        = ((b.dropWhile isWsChar).reverse.dropWhile isWsChar).length := by
          simp
      _ ≤ (b.dropWhile isWsChar).reverse.length :=
          len_dropWhile_le _ _
      _ = (b.dropWhile isWsChar).length := by simp
  have hlen2 : (b.dropWhile isWsChar).length ≤ b.length := len_dropWhile_le _ _
  have hb : (trimWs b).length = b.length := by rw [h]
  exact dropWhile_len_eq b (by omega)

theorem rtrim_of_trim_fix {b : Str} (h : trimWs b = b) :
    (b.reverse.dropWhile isWsChar).reverse = b := by
  have h2 := h
  unfold trimWs at h2
  rwa [ltrim_of_trim_fix h] at h2

theorem trim_cons_ws_of_fix {b : Str} (c : Char) (hc : isWsChar c = true)
    (h : trimWs b = b) : trimWs (c :: b) = b := by
  unfold trimWs
  rw [List.dropWhile_cons, hc]
  simp only [if_true]
  rw [ltrim_of_trim_fix h]
  exact rtrim_of_trim_fix h

theorem trim_fix_head_not_ws {b : Str} {c : Char} {r : Str} (h : trimWs b = b)
    (hb : b = c :: r) : isWsChar c = false := by
  have h1 := ltrim_of_trim_fix h
  subst hb
  cases hc : isWsChar c with
  | false => rfl
  | true =>
    exfalso
    rw [List.dropWhile_cons, hc] at h1
    simp only [if_true] at h1
    have := congrArg List.length h1
    have h2 : (List.dropWhile isWsChar r).length ≤ r.length := len_dropWhile_le _ _
    simp at this
    omega

theorem align_keyword_cases {o : Str} (h : isAlignKeyword o = true) :
    o = strL "center" ∨ o = strL "left" ∨ o = strL "right" := by
  simpa [isAlignKeyword] using h

theorem align_not_wxh {o : Str} (h : isAlignKeyword o = true) : isWxH o = false := by
  rcases align_keyword_cases h with h1 | h1 | h1 <;> subst h1 <;> decide

theorem align_not_digits {o : Str} (h : isAlignKeyword o = true) : isAllDigits o = false := by
  rcases align_keyword_cases h with h1 | h1 | h1 <;> subst h1 <;> decide

theorem getLast?_snoc {α : Type} (xs : List α) (a : α) : (xs ++ [a]).getLast? = some a := by
  induction xs with
  | nil => rfl
  | cons x xs ih =>
    rw [List.cons_append, List.getLast?_cons, ih]
    cases xs <;> simp_all

theorem processOptions_snoc (l : List Str) (o : Str) :
    processOptions (l ++ [o]) = applyOption (processOptions l) o := by
  simp [processOptions, List.foldl_append]

/-! ## Claims about the embed-syntax plugin -/

/-- Claim C1 (code_bug evidence): for the embed carrying only the
alignment option center, the extension callback receives the alignment
string as its width field (the attrs array is read positionally), while
the classification itself assigned no width; the claim states that
width and height passed to the callback are absent for such an embed. -/
theorem C1_theorem :
    callbackArgsAt (strL "![[pic|center]]") =
      some (some (strL "pic"), some (strL "center"), none) ∧
    (processOptions [strL "center"]).width = none ∧
    (processOptions [strL "center"]).height = none := by
  refine ⟨by decide, by decide, by decide⟩

/-- Counterexample to claim C2: the pair of size options 100x50 and 200
yields different final widths depending on order, so the net effect of
an option list is not order-independent for size options. -/
theorem C2_counterexample :
    processOptions [strL "100x50", strL "200"] =
      ⟨some (strL "200"), some (strL "50"), none⟩ ∧
    processOptions [strL "200", strL "100x50"] =
      ⟨some (strL "100"), some (strL "50"), none⟩ ∧
    processOptions [strL "100x50", strL "200"] ≠
      processOptions [strL "200", strL "100x50"] := by
  refine ⟨by decide, by decide, by decide⟩

/-- Claim C2 as amended: each pipe-delimited option is classified
left-to-right (an exact center/left/right keyword sets align, a
digits-x-digits option sets width and height, an all-digits option sets
width, anything else is ignored without error), and the net effect is
last-wins per field: the final align is the last alignment keyword, the
final width comes from the last size option, and the final height from
the last digits-x-digits option — so a later size option overrides an
earlier one and order between size options matters. -/
theorem C2_theorem (opts : List Str) :
    processOptions opts = ⟨specWidth opts, specHeight opts, lastAlignOf opts⟩ := by
  induction opts using List.reverseRecOn with
  | nil => rfl
  | append_singleton l o ih =>
    rw [processOptions_snoc, ih]
    unfold applyOption
    by_cases h1 : isAlignKeyword o = true
    · simp only [h1, if_true]
      have h2 := align_not_wxh h1
      have h3 := align_not_digits h1
      simp [specWidth, specHeight, lastAlignOf, isSizeOption, List.filter_append,
        h1, h2, h3, getLast?_snoc]
    · have h1f : isAlignKeyword o = false := by simpa using h1
      by_cases h2 : isWxH o = true
      · simp only [h1f, h2, if_true, Bool.false_eq_true, if_false]
        simp [specWidth, specHeight, lastAlignOf, isSizeOption, List.filter_append,
          h1f, h2, getLast?_snoc]
      · have h2f : isWxH o = false := by simpa using h2
        by_cases h3 : isAllDigits o = true
        · simp only [h1f, h2f, h3, if_true, Bool.false_eq_true, if_false]
          simp [specWidth, specHeight, lastAlignOf, isSizeOption, List.filter_append,
            h1f, h2f, h3, getLast?_snoc]
        · have h3f : isAllDigits o = false := by simpa using h3
          simp [specWidth, specHeight, lastAlignOf, isSizeOption, List.filter_append,
            h1f, h2f, h3f]

/-- Counterexample to claim C3: a token with no src attribute renders
with the literal text undefined as its source (JS template-literal
interpolation of undefined), not with an empty source. -/
theorem C3_counterexample :
    renderObImg [] = strL "<img src=\"undefined\" alt=\"\">" ∧
    containsSub (renderObImg []) (strL "src=\"\"") = false := by
  refine ⟨by decide, by decide⟩

/-- Claim C3 as amended: the renderer follows the four-branch policy
(align set: figure wrapping an img with inline pixel style and the
matching alignment class; else width and height: img with both
attributes; else width only: img with a width attribute; else a bare
img), every branch output contains an empty alt attribute, and a token
with no src attribute still renders without error, degrading to the
literal source text undefined. -/
theorem C3_theorem :
    (∀ attrs, containsSub (renderObImg attrs) (strL "alt=\"\"") = true) ∧
    (∀ src w h a, renderObImg (mkTokenAttrs src w h (some a)) =
      strL "<figure class=\"wp-block-image " ++ alignClassOf a ++ strL "\"><img src=\"" ++
        src ++ strL "\" style=\"" ++ pixelStyleOf w h ++ strL "\" alt=\"\"/></figure>") ∧
    (∀ src w h, renderObImg (mkTokenAttrs src (some w) (some h) none) =
      strL "<img src=\"" ++ src ++ strL "\" width=\"" ++ w ++ strL "\" height=\"" ++ h ++
        strL "\" alt=\"\">") ∧
    (∀ src w, renderObImg (mkTokenAttrs src (some w) none none) =
      strL "<img src=\"" ++ src ++ strL "\" width=\"" ++ w ++ strL "\" alt=\"\">") ∧
    (∀ src h, renderObImg (mkTokenAttrs src none h none) =
      strL "<img src=\"" ++ src ++ strL "\" alt=\"\">") ∧
    renderObImg [] = strL "<img src=\"undefined\" alt=\"\">" := by
  refine ⟨?_, ?_, ?_, ?_, ?_, by decide⟩
  · intro attrs
    show containsSub (renderObImg attrs) (strL "alt=\"\"") = true
    simp only [renderObImg]
    have hsplit1 : strL "\" alt=\"\"/></figure>" =
      strL "\" " ++ (strL "alt=\"\"" ++ strL "/></figure>") := by decide
    have hsplit2 : strL "\" alt=\"\">" = strL "\" " ++ (strL "alt=\"\"" ++ strL ">") := by
      decide
    split
    · rw [hsplit1]
      simp only [List.append_assoc]
      repeat
        first
        | exact containsSub_here _ _ (isPrefixOf_self_append _ _)
        | apply containsSub_append_left
    · split
      · split
        all_goals
          rw [hsplit2]
          simp only [List.append_assoc]
          repeat
            first
            | exact containsSub_here _ _ (isPrefixOf_self_append _ _)
            | apply containsSub_append_left
      · rw [hsplit2]
        simp only [List.append_assoc]
        repeat
          first
          | exact containsSub_here _ _ (isPrefixOf_self_append _ _)
          | apply containsSub_append_left
  · intro src w h a
    cases a <;> cases w <;> cases h <;> rfl
  · intro src w h
    rfl
  · intro src w
    rfl
  · intro src h
    cases h <;> rfl

/-! ## Callout extractor lemmas -/

theorem ciThenClose_self (k rest : Str) (h : ∀ c ∈ k, toLowerChar c = c) :
    ciThenClose k (k ++ ']' :: rest) = true := by
  induction k with
  | nil => rfl
  | cons c cs ih =>
    simp only [List.cons_append, ciThenClose, Bool.and_eq_true, decide_eq_true_eq]
    exact ⟨h c (by simp), ih (fun x hx => h x (by simp [hx]))⟩

theorem ciThenClose_forces (kk : Str) (hnck : ∀ c ∈ kk, ¬(c = ']')) :
    ∀ (k rest : Str), (∀ c ∈ k, toLowerChar c = c) → (∀ c ∈ k, ¬(c = ']')) →
      ciThenClose kk (k ++ ']' :: rest) = true → kk = k := by
  induction kk with
  | nil =>
    intro k rest _ hnc h
    cases k with
    | nil => rfl
    | cons c cs =>
      exfalso
      have hc : c = ']' := by simpa [ciThenClose] using h
      exact (hnc c (by simp)) hc
  | cons p ps ih =>
    intro k rest hlck hnc h
    cases k with
    | nil =>
      exfalso
      simp only [List.nil_append, ciThenClose, Bool.and_eq_true, decide_eq_true_eq] at h
      have h2 : toLowerChar ']' = ']' := by decide
      exact (hnck p (by simp)) (by rw [← h.1, h2])
    | cons c cs =>
      simp only [List.cons_append, ciThenClose, Bool.and_eq_true, decide_eq_true_eq] at h
      obtain ⟨h1, h2⟩ := h
      have hc : toLowerChar c = c := hlck c (by simp)
      have hpc : p = c := by rw [← h1, hc]
      subst hpc
      have := ih (fun x hx => hnck x (by simp [hx])) cs rest
        (fun x hx => hlck x (by simp [hx])) (fun x hx => hnc x (by simp [hx])) h2
      rw [this]

theorem find?_unique {α : Type} (l : List α) (p : α → Bool) (k : α)
    (hmem : k ∈ l) (hiff : ∀ x ∈ l, p x = true ↔ x = k) : l.find? p = some k := by
  induction l with
  | nil => simp at hmem
  | cons a l2 ih =>
    cases hp : p a with
    | true =>
      have : a = k := (hiff a (by simp)).1 hp
      subst this
      simp [List.find?, hp]
    | false =>
      have hak : ¬(a = k) := by
        intro hc
        subst hc
        rw [(hiff a (by simp)).2 rfl] at hp
        cases hp
      have hk2 : k ∈ l2 := by
        cases hmem with
        | head => exact absurd rfl hak
        | tail _ h => exact h
      simp only [List.find?, hp]
      exact ih hk2 (fun x hx => hiff x (by simp [hx]))

theorem kinds_no_close : ∀ kk ∈ calloutKinds, ∀ c ∈ kk, ¬(c = ']') := by decide

theorem kinds_lc_fixed : ∀ kk ∈ calloutKinds, ∀ c ∈ kk, toLowerChar c = c := by decide

theorem markerKindAt_marker (k rest : Str) (hmem : k ∈ calloutKinds) :
    markerKindAt ('[' :: '!' :: (k ++ ']' :: rest)) = some k := by
  show calloutKinds.find? (fun kk => ciThenClose kk (k ++ ']' :: rest)) = some k
  apply find?_unique _ _ _ hmem
  intro kk hkk
  constructor
  · intro h
    exact ciThenClose_forces kk (kinds_no_close kk hkk) k rest
      (kinds_lc_fixed k hmem) (kinds_no_close k hmem) h
  · intro h
    subst h
    exact ciThenClose_self kk rest (kinds_lc_fixed kk hkk)

theorem markerKindAt_none_of_head (c : Char) (z : Str) (h : ¬(c = '[')) :
    markerKindAt (c :: z) = none := by
  unfold markerKindAt
  split
  · rename_i t heq
    exact absurd (by injection heq) h
  · rfl

theorem calloutSearch_append (p : Str) (k rest : Str) (hmem : k ∈ calloutKinds)
    (hp : ∀ ch ∈ p, ¬(ch = '[')) :
    calloutSearch (p ++ ('[' :: '!' :: (k ++ ']' :: rest))) = some (p.length, k) := by
  induction p with
  | nil =>
    rw [List.nil_append]
    simp only [calloutSearch]
    rw [markerKindAt_marker k rest hmem]
    rfl
  | cons c p2 ih =>
    have hc := hp c (by simp)
    rw [List.cons_append]
    simp only [calloutSearch]
    rw [markerKindAt_none_of_head c _ hc]
    rw [ih (fun x hx => hp x (by simp [hx]))]
    simp

theorem processCallout_shape (p k post : Str) (ruid : Nat → Str) (c : Nat)
    (hmem : k ∈ calloutKinds) (hp : ∀ ch ∈ p, ¬(ch = '[')) :
    processCalloutContentSimple ruid (p ++ ('[' :: '!' :: (k ++ ']' :: post))) c =
      (let ws := post.takeWhile isWsChar
       let captured := (post.drop ws.length).takeWhile (fun ch => ¬(ch = '\n'))
       let title := if captured.isEmpty then capitalizeStr k else trimWs captured
       let body :=
         trimWs (removePTags (p ++ post.drop (ws.length + captured.length)))
       (some (alertBlockOf (calloutCategoryOf k) title body (ruid c)), c + 1)) := by
  have hsplit : ('[' :: '!' :: (k ++ ']' :: post)) =
      ('[' :: '!' :: (k ++ [']'])) ++ post := by simp
  have hlenA : ('[' :: '!' :: (k ++ [']'])).length = 2 + k.length + 1 := by
    simp
    omega
  simp only [processCalloutContentSimple,
    calloutSearch_append p k post hmem hp]
  have hdrop1 : (p ++ ('[' :: '!' :: (k ++ ']' :: post))).drop
      (p.length + 2 + k.length + 1) = post := by
    rw [hsplit, ← List.append_assoc]
    have : p.length + 2 + k.length + 1 =
        (p ++ ('[' :: '!' :: (k ++ [']']))).length + 0 := by
      simp only [List.length_append, hlenA]
      omega
    rw [this, List.drop_append]
    rfl
  have htake : (p ++ ('[' :: '!' :: (k ++ ']' :: post))).take p.length = p := by
    rw [List.take_left]
  have hdrop2 : ∀ a b : Nat, (p ++ ('[' :: '!' :: (k ++ ']' :: post))).drop
      (p.length + (2 + k.length + 1 + a + b)) = post.drop (a + b) := by
    intro a b
    rw [hsplit, ← List.append_assoc]
    have : p.length + (2 + k.length + 1 + a + b) =
        (p ++ ('[' :: '!' :: (k ++ [']']))).length + (a + b) := by
      simp only [List.length_append, hlenA]
      omega
    rw [this, List.drop_append]
  rw [hdrop1, htake, hdrop2]
  rfl

theorem removePTags_cons_nt (c : Char) (t : Str) (h : ¬(c = '<')) :
    removePTags (c :: t) = c :: removePTags t := by
  show removePTagsF (c :: t).length (c :: t) = c :: removePTagsF t.length t
  rw [List.length_cons]
  simp only [removePTagsF]
  rw [show (strL "<p>") = '<' :: strL "p>" from rfl,
    show (strL "</p>") = '<' :: strL "/p>" from rfl,
    isPrefixOf_head_ne _ _ (by intro hc; exact h hc.symm),
    isPrefixOf_head_ne _ _ (by intro hc; exact h hc.symm)]
  simp

/-! ## Claims about the callout extractor -/

/-- Counterexample to claim C4: for the quote fragment carrying the
success marker with no trailing text on the marker line, the emitted
alert title is taken from the following line (the whitespace class of
the title pattern crosses the newline), not the capitalized kind. -/
theorem C4_counterexample :
    ((processCalloutContentSimple (fun _ => strL "u") (strL "[!success]\nDo X") 0).1.map
      (fun b => (containsSub b (strL "\"alertTitle\":\"Do X\""),
                 containsSub b (strL "\"alertTitle\":\"Success\"")))) =
      some (true, false) := by decide

/-- Claim C4 as amended: the kind-to-category mapping is the fixed
four-way collapse (warning, caution, danger to warning; success to
success; error, failure to error; all other kinds to info); the title
is the text captured after the marker with any whitespace, including
line breaks, skipped first and the capture running to the end of that
line — so for a marker followed directly by text on the same line it
is that trimmed text, and when nothing but whitespace follows the
marker anywhere the title defaults to the kind keyword with its first
character capitalized. -/
theorem C4_theorem :
    (∀ k ∈ calloutKinds,
      processCalloutContentSimple (fun _ => strL "u") ('[' :: '!' :: (k ++ [']'])) 0 =
        (some (alertBlockOf (calloutCategoryOf k) (capitalizeStr k) [] (strL "u")), 1)) ∧
    (∀ (k t b : Str) (ruid : Nat → Str) (c : Nat), k ∈ calloutKinds →
      trimWs t = t → ¬(t = []) → (∀ ch ∈ t, ¬(ch = '\n')) →
      trimWs b = b → removePTags b = b →
      processCalloutContentSimple ruid
          ('[' :: '!' :: (k ++ (']' :: ' ' :: (t ++ '\n' :: b)))) c =
        (some (alertBlockOf (calloutCategoryOf k) t b (ruid c)), c + 1)) := by
  constructor
  · decide
  · intro k t b ruid c hmem ht1 ht0 ht3 hb1 hb2
    have hshape := processCallout_shape [] k (' ' :: (t ++ '\n' :: b)) ruid c hmem
      (by intro ch hch; simp at hch)
    rw [List.nil_append] at hshape
    have hcontent : ('[' :: '!' :: (k ++ (']' :: ' ' :: (t ++ '\n' :: b)))) =
        ('[' :: '!' :: (k ++ ']' :: (' ' :: (t ++ '\n' :: b)))) := rfl
    rw [hcontent, hshape]
    obtain ⟨c0, t0, ht⟩ : ∃ c0 t0, t = c0 :: t0 := by
      cases t with
      | nil => exact absurd rfl ht0
      | cons x xs => exact ⟨x, xs, rfl⟩
    have hc0 : isWsChar c0 = false := trim_fix_head_not_ws ht1 ht
    have hws : (' ' :: (t ++ '\n' :: b)).takeWhile isWsChar = [' '] := by
      rw [ht, List.cons_append]
      rw [List.takeWhile_cons]
      simp only [show isWsChar ' ' = true from rfl, if_true]
      rw [List.takeWhile_cons]
      simp [hc0]
    have hcap : ((' ' :: (t ++ '\n' :: b)).drop 1).takeWhile
        (fun ch => ¬(ch = '\n')) = t := by
      show (t ++ '\n' :: b).takeWhile (fun ch => ¬(ch = '\n')) = t
      rw [takeWhile_append_all _ _ (by intro x hx; simpa using ht3 x hx)]
      rw [takeWhile_cons_neg _ _ (by simp)]
      simp
    have hbody : ((' ' :: (t ++ '\n' :: b)).drop (1 + t.length)) = '\n' :: b := by
      have : (' ' :: (t ++ '\n' :: b)).drop (1 + t.length) =
          (t ++ '\n' :: b).drop t.length := by
        rw [Nat.add_comm 1 t.length]
        rfl
      rw [this, List.drop_left]
    simp only [List.nil_append]
    rw [hws]
    rw [show ([' '] : Str).length = 1 from rfl]
    rw [hcap]
    rw [hbody]
    have ht0f : t.isEmpty = false := by
      rw [ht]; rfl
    simp only [ht0f, Bool.false_eq_true, if_false]
    rw [removePTags_cons_nt '\n' b (by decide), hb2,
      trim_cons_ws_of_fix '\n' (by decide) hb1, ht1]

theorem splitNl_single (s : Str) (h : ∀ ch ∈ s, ¬(ch = '\n')) : splitNl s = [s] := by
  induction s with
  | nil => rfl
  | cons c t ih =>
    have hc : ¬(c = '\n') := h c (by simp)
    simp only [splitNl, hc, if_false]
    rw [ih (fun x hx => h x (by simp [hx]))]

theorem imgTagMatch_none_of_head (s : Str) (c : Char) (z : Str)
    (hdw : s.dropWhile isWsChar = c :: z) (hc : ¬(c = '<')) : imgTagMatch s = none := by
  unfold imgTagMatch
  rw [hdw]
  have hpre : (strL "<img").isPrefixOf (c :: z) = false := by
    rw [show (strL "<img") = '<' :: strL "img" from rfl]
    exact isPrefixOf_head_ne _ _ (by intro h2; exact hc h2.symm)
  simp [hpre]

theorem isSuffixOf_self_append (y x : Str) : y.isSuffixOf (x ++ y) = true := by
  show (y.reverse.isPrefixOf (x ++ y).reverse) = true
  rw [List.reverse_append]
  exact isPrefixOf_self_append _ _

theorem paraMatch_wrap (content : Str) :
    paraMatch (strL "<p>" ++ content ++ strL "</p>") = some content := by
  unfold paraMatch
  have h1 : (strL "<p>").isPrefixOf (strL "<p>" ++ content ++ strL "</p>") = true := by
    rw [List.append_assoc]
    exact isPrefixOf_self_append _ _
  have h2 : (strL "</p>").isSuffixOf (strL "<p>" ++ content ++ strL "</p>") = true :=
    isSuffixOf_self_append _ _
  have hlen : (strL "<p>" ++ content ++ strL "</p>").length = content.length + 7 := by
    simp only [List.length_append, show (strL "<p>").length = 3 from rfl,
      show (strL "</p>").length = 4 from rfl]
    omega
  rw [h1, h2, hlen]
  have h7 : decide (7 ≤ content.length + 7) = true := by
    simp
  rw [h7]
  simp only [Bool.and_true, Bool.true_and, if_true]
  congr 1
  rw [List.append_assoc, Nat.add_sub_cancel,
    show (3 : Nat) = (strL "<p>").length from rfl, List.drop_left]
  exact List.take_left _ _

theorem takeWhile_all {p : Char → Bool} (t : Str) (h : ∀ x ∈ t, p x = true) :
    t.takeWhile p = t := by
  induction t with
  | nil => rfl
  | cons c r ih =>
    rw [List.takeWhile_cons, h c (by simp)]
    simp [ih (fun x hx => h x (by simp [hx]))]

theorem kinds_no_newline : ∀ kk ∈ calloutKinds, ∀ c ∈ kk, ¬(c = '\n') := by decide

/-- Witness for the amended claim C4 at concrete inputs. -/
theorem C4_theorem_witness :
    processCalloutContentSimple (fun _ => strL "u") ('[' :: '!' :: (strL "faq" ++ [']'])) 0 =
      (some (alertBlockOf (calloutCategoryOf (strL "faq")) (capitalizeStr (strL "faq")) []
        (strL "u")), 1) ∧
    processCalloutContentSimple (fun _ => strL "u")
        ('[' :: '!' :: (strL "warning" ++ (']' :: ' ' ::
          (strL "Careful" ++ '\n' :: strL "Do X")))) 0 =
      (some (alertBlockOf (calloutCategoryOf (strL "warning")) (strL "Careful")
        (strL "Do X") (strL "u")), 1) :=
  ⟨C4_theorem.1 (strL "faq") (by decide),
   C4_theorem.2 (strL "warning") (strL "Careful") (strL "Do X") (fun _ => strL "u") 0
     (by decide) (by decide) (by decide) (by decide) (by decide) (by decide)⟩

theorem dropWhile_fix_head_false {pr : Char → Bool} {c : Char} {r : Str}
    (hfix : List.dropWhile pr (c :: r) = c :: r) : pr c = false := by
  cases hpc : pr c with
  | false => rfl
  | true =>
    exfalso
    rw [List.dropWhile_cons, hpc] at hfix
    simp only [if_true] at hfix
    have h2 := len_dropWhile_le pr r
    have h3 := congrArg List.length hfix
    simp at h3
    omega

theorem dropWhile_fix_append {pr : Char → Bool} {xs : Str} (ys : Str)
    (hne : ¬(xs = [])) (hfix : xs.dropWhile pr = xs) :
    (xs ++ ys).dropWhile pr = xs ++ ys := by
  cases xs with
  | nil => exact absurd rfl hne
  | cons c r =>
    rw [List.cons_append, List.dropWhile_cons, dropWhile_fix_head_false hfix]
    simp

theorem trim_fix_marker_concat (p k t : Str) (hp4 : trimWs p = p)
    (ht1 : trimWs t = t) (ht0 : ¬(t = [])) :
    trimWs (p ++ ('[' :: '!' :: (k ++ ']' :: t))) =
      p ++ ('[' :: '!' :: (k ++ ']' :: t)) := by
  unfold trimWs
  have hLeft : (p ++ ('[' :: '!' :: (k ++ ']' :: t))).dropWhile isWsChar =
      p ++ ('[' :: '!' :: (k ++ ']' :: t)) := by
    cases p with
    | nil =>
      rw [List.nil_append, List.dropWhile_cons,
        show isWsChar '[' = false from by decide]
      simp
    | cons c p0 =>
      rw [List.cons_append, List.dropWhile_cons,
        dropWhile_fix_head_false (ltrim_of_trim_fix hp4)]
      simp
  rw [hLeft]
  have hrt : t.reverse.dropWhile isWsChar = t.reverse := by
    have h2 := congrArg List.reverse (rtrim_of_trim_fix ht1)
    rwa [List.reverse_reverse] at h2
  have hne : ¬(t.reverse = []) := by
    cases t with
    | nil => exact absurd rfl ht0
    | cons a b => simp
  have hrev : (p ++ ('[' :: '!' :: (k ++ ']' :: t))).reverse =
      t.reverse ++ (']' :: (k.reverse ++ ('!' :: '[' :: p.reverse))) := by
    simp [List.reverse_append, List.append_assoc]
  rw [hrev, dropWhile_fix_append _ hne hrt, ← hrev, List.reverse_reverse]

theorem removeBqTagsF_skip :
    ∀ (inner : Str) (fuel : Nat) (rest : Str), (∀ ch ∈ inner, ¬(ch = '<')) →
    inner.length ≤ fuel →
    removeBqTagsF fuel (inner ++ rest) =
      inner ++ removeBqTagsF (fuel - inner.length) rest
  | [], fuel, rest, _, _ => by simp
  | ch :: inner, fuel, rest, h, hlen => by
    obtain ⟨f, rfl⟩ : ∃ f, fuel = f + 1 := by
      cases fuel with
      | zero =>
        exfalso
        simp only [List.length_cons] at hlen
        omega
      | succ f => exact ⟨f, rfl⟩
    have hch : ¬(ch = '<') := h ch (by simp)
    have hop : (strL "<blockquote>").isPrefixOf (ch :: (inner ++ rest)) = false := by
      rw [show strL "<blockquote>" = '<' :: strL "blockquote>" from rfl]
      exact isPrefixOf_head_ne _ _ (by intro hc; exact hch hc.symm)
    have hcl : (strL "</blockquote>").isPrefixOf (ch :: (inner ++ rest)) = false := by
      rw [show strL "</blockquote>" = '<' :: strL "/blockquote>" from rfl]
      exact isPrefixOf_head_ne _ _ (by intro hc; exact hch hc.symm)
    rw [List.cons_append]
    rw [show removeBqTagsF (f + 1) (ch :: (inner ++ rest)) =
      (if (strL "<blockquote>").isPrefixOf (ch :: (inner ++ rest)) then
        removeBqTagsF f ((ch :: (inner ++ rest)).drop 12)
      else if (strL "</blockquote>").isPrefixOf (ch :: (inner ++ rest)) then
        removeBqTagsF f ((ch :: (inner ++ rest)).drop 13)
      else ch :: removeBqTagsF f (inner ++ rest)) from rfl]
    rw [hop]
    simp only [Bool.false_eq_true, if_false]
    rw [hcl]
    simp only [Bool.false_eq_true, if_false]
    rw [removeBqTagsF_skip inner f rest (fun x hx => h x (by simp [hx]))
      (by simp only [List.length_cons] at hlen; omega)]
    rw [show (f + 1) - (ch :: inner).length = f - inner.length from by
      simp only [List.length_cons]; omega]
    rfl

theorem removeBqTags_wrap (inner : Str) (h : ∀ ch ∈ inner, ¬(ch = '<')) :
    removeBqTags (strL "<blockquote>" ++ (inner ++ strL "</blockquote>")) = inner := by
  unfold removeBqTags
  rw [show (strL "<blockquote>" ++ (inner ++ strL "</blockquote>")).length =
    (24 + inner.length) + 1 from by
      simp only [List.length_append, show (strL "<blockquote>").length = 12 from rfl,
        show (strL "</blockquote>").length = 13 from rfl]
      omega]
  rw [show strL "<blockquote>" ++ (inner ++ strL "</blockquote>") =
    '<' :: (strL "blockquote>" ++ (inner ++ strL "</blockquote>")) from rfl]
  rw [show removeBqTagsF ((24 + inner.length) + 1)
      ('<' :: (strL "blockquote>" ++ (inner ++ strL "</blockquote>"))) =
    (if (strL "<blockquote>").isPrefixOf
        ('<' :: (strL "blockquote>" ++ (inner ++ strL "</blockquote>"))) then
      removeBqTagsF (24 + inner.length)
        (('<' :: (strL "blockquote>" ++ (inner ++ strL "</blockquote>"))).drop 12)
    else if (strL "</blockquote>").isPrefixOf
        ('<' :: (strL "blockquote>" ++ (inner ++ strL "</blockquote>"))) then
      removeBqTagsF (24 + inner.length)
        (('<' :: (strL "blockquote>" ++ (inner ++ strL "</blockquote>"))).drop 13)
    else '<' :: removeBqTagsF (24 + inner.length)
      (strL "blockquote>" ++ (inner ++ strL "</blockquote>"))) from rfl]
  rw [show ('<' :: (strL "blockquote>" ++ (inner ++ strL "</blockquote>"))) =
    strL "<blockquote>" ++ (inner ++ strL "</blockquote>") from rfl,
    isPrefixOf_self_append]
  simp only [if_true]
  rw [show ((strL "<blockquote>" ++ (inner ++ strL "</blockquote>")).drop 12) =
    inner ++ strL "</blockquote>" from by
      rw [show (12 : Nat) = (strL "<blockquote>").length from rfl, List.drop_left]]
  rw [removeBqTagsF_skip inner (24 + inner.length) (strL "</blockquote>") h
    (by omega)]
  rw [show 24 + inner.length - inner.length = 24 from by omega]
  rw [show removeBqTagsF 24 (strL "</blockquote>") = [] from rfl]
  exact List.append_nil inner

theorem consumeSpan_close_first (close first : Str) (rest : List Str)
    (hf : containsSub first close = true) :
    consumeSpan close first rest = (first, rest) := by
  unfold consumeSpan
  rw [hf]
  simp

theorem isPrefixOf_refl_str (s : Str) : s.isPrefixOf s = true := by
  have h := isPrefixOf_self_append s []
  rwa [List.append_nil] at h

theorem kinds_no_lt : ∀ kk ∈ calloutKinds, ∀ c ∈ kk, ¬(c = '<') := by decide

/-- Counterexample to claim C10: for a fragment whose marker line ends
at the marker, the title is taken from the next line (Next), not only
from the text following the marker on the marker line (which is empty
and would default to Note). -/
theorem C10_counterexample :
    ((processCalloutContentSimple (fun _ => strL "u") (strL "pre[!note]\nNext") 0).1.map
      (fun b => (containsSub b (strL "\"alertTitle\":\"Next\""),
                 containsSub b (strL "\"alertTitle\":\"Note\"")))) =
      some (true, false) := by decide

/-- Claim C10 as amended: callout detection is position-independent —
for a paragraph or quote fragment in which an enumerated-kind marker
occurs anywhere (not only at the start), the whole fragment is emitted
as exactly one alert block and no separate paragraph or quote block is
emitted; text preceding the marker remains the alert body, and the
title is the text captured after the marker, where the capture may skip
whitespace including line breaks before running to the end of a line. -/
theorem C10_theorem (p k t : Str) (rid : Nat → Nat) (ruid : Nat → Str) (c : Nat)
    (hmem : k ∈ calloutKinds)
    (hp1 : ∀ ch ∈ p, ¬(ch = '[')) (hp2 : ∀ ch ∈ p, ¬(ch = '\n'))
    (hp3 : ∀ ch ∈ p, ¬(ch = '<'))
    (hp4 : trimWs p = p) (hp5 : removePTags p = p)
    (ht1 : trimWs t = t) (ht0 : ¬(t = [])) (ht3 : ∀ ch ∈ t, ¬(ch = '\n'))
    (ht4 : ∀ ch ∈ t, ¬(ch = '<')) :
    processCalloutContentSimple ruid (p ++ ('[' :: '!' :: (k ++ ']' :: t))) c =
      (some (alertBlockOf (calloutCategoryOf k) t p (ruid c)), c + 1) ∧
    splitContentIntoBlocks rid ruid
        (strL "<p>" ++ (p ++ ('[' :: '!' :: (k ++ ']' :: t))) ++ strL "</p>") c =
      ([alertBlockOf (calloutCategoryOf k) t p (ruid c)], c + 1) ∧
    splitContentIntoBlocks rid ruid
        (strL "<blockquote>" ++ ((p ++ ('[' :: '!' :: (k ++ ']' :: t))) ++
          strL "</blockquote>")) c =
      ([alertBlockOf (calloutCategoryOf k) t p (ruid c)], c + 1) := by
  obtain ⟨c0, t0, ht⟩ : ∃ c0 t0, t = c0 :: t0 := by
    cases t with
    | nil => exact absurd rfl ht0
    | cons x xs => exact ⟨x, xs, rfl⟩
  have hc0 : isWsChar c0 = false := trim_fix_head_not_ws ht1 ht
  have hpart1 : processCalloutContentSimple ruid (p ++ ('[' :: '!' :: (k ++ ']' :: t))) c =
      (some (alertBlockOf (calloutCategoryOf k) t p (ruid c)), c + 1) := by
    rw [processCallout_shape p k t ruid c hmem hp1]
    have hws : t.takeWhile isWsChar = [] := by
      rw [ht]
      exact takeWhile_cons_neg _ _ hc0
    have hcap2 : List.takeWhile (fun ch => ¬(ch = '\n')) t = t :=
      takeWhile_all t (by intro x hx; simpa using ht3 x hx)
    have ht0f : t.isEmpty = false := by rw [ht]; rfl
    simp only [hws, List.length_nil, List.drop_zero, hcap2, Nat.zero_add,
      List.drop_length, List.append_nil, ht0f, Bool.false_eq_true, if_false,
      hp5, hp4, ht1]
  have hmarker : ∀ ch ∈ ('[' :: '!' :: (k ++ ']' :: t)), ¬(ch = '\n') := by
    intro ch hch
    rw [List.mem_cons] at hch
    rcases hch with hch | hch
    · subst hch; decide
    · rw [List.mem_cons] at hch
      rcases hch with hch | hch
      · subst hch; decide
      · rw [List.mem_append] at hch
        rcases hch with hch | hch
        · exact kinds_no_newline k hmem ch hch
        · rw [List.mem_cons] at hch
          rcases hch with hch | hch
          · subst hch; decide
          · exact ht3 ch hch
  have hhas : hasCalloutSyntax (p ++ ('[' :: '!' :: (k ++ ']' :: t))) = true := by
    unfold hasCalloutSyntax
    rw [calloutSearch_append p k t hmem hp1]
    rfl
  refine ⟨hpart1, ?_, ?_⟩
  · have hnl : ∀ ch ∈ (strL "<p>" ++ (p ++ ('[' :: '!' :: (k ++ ']' :: t))) ++ strL "</p>"),
        ¬(ch = '\n') := by
      intro ch hch
      have h1 : ∀ x ∈ strL "<p>", ¬(x = '\n') := by decide
      have h2 : ∀ x ∈ strL "</p>", ¬(x = '\n') := by decide
      rw [List.mem_append] at hch
      rcases hch with hch | hch
      · rw [List.mem_append] at hch
        rcases hch with hch | hch
        · exact h1 ch hch
        · rw [List.mem_append] at hch
          rcases hch with hch | hch
          · exact hp2 ch hch
          · exact hmarker ch hch
      · exact h2 ch hch
    have hheading : headingMatch (strL "<p>" ++ (p ++ ('[' :: '!' :: (k ++ ']' :: t))) ++
        strL "</p>") = none := rfl
    have hhr : hrMatch (strL "<p>" ++ (p ++ ('[' :: '!' :: (k ++ ']' :: t))) ++
        strL "</p>") = false := rfl
    have htab : (strL "<table>").isPrefixOf (strL "<p>" ++ (p ++ ('[' :: '!' ::
        (k ++ ']' :: t))) ++ strL "</p>") = false := rfl
    have hpr : (strL "<pre>").isPrefixOf (strL "<p>" ++ (p ++ ('[' :: '!' ::
        (k ++ ']' :: t))) ++ strL "</p>") = false := rfl
    have hul : (strL "<ul>").isPrefixOf (strL "<p>" ++ (p ++ ('[' :: '!' ::
        (k ++ ']' :: t))) ++ strL "</p>") = false := rfl
    have hol : (strL "<ol>").isPrefixOf (strL "<p>" ++ (p ++ ('[' :: '!' ::
        (k ++ ']' :: t))) ++ strL "</p>") = false := rfl
    have hbq : (strL "<blockquote>").isPrefixOf (strL "<p>" ++ (p ++ ('[' :: '!' ::
        (k ++ ']' :: t))) ++ strL "</p>") = false := rfl
    have hpara := paraMatch_wrap (p ++ ('[' :: '!' :: (k ++ ']' :: t)))
    have himg : imgTagMatch (p ++ ('[' :: '!' :: (k ++ ']' :: t))) = none := by
      cases p with
      | nil =>
        exact imgTagMatch_none_of_head _ '[' ('!' :: (k ++ ']' :: t)) rfl (by decide)
      | cons d p0 =>
        have hd : isWsChar d = false := trim_fix_head_not_ws hp4 rfl
        apply imgTagMatch_none_of_head _ d (p0 ++ ('[' :: '!' :: (k ++ ']' :: t)))
        · rw [List.cons_append, List.dropWhile_cons, hd]
          simp
        · exact hp3 d (by simp)
    unfold splitContentIntoBlocks
    rw [splitNl_single _ hnl]
    simp only [List.length_singleton]
    simp only [splitGoF, hheading, hhr, htab, hpr, hul, hol, hbq, hpara, himg, hhas,
      paragraphBranch, hpart1, if_true, Bool.false_eq_true, if_false]
    simp

  · have hnlq : ∀ ch ∈ (strL "<blockquote>" ++ ((p ++ ('[' :: '!' :: (k ++ ']' :: t))) ++
        strL "</blockquote>")), ¬(ch = '\n') := by
      intro ch hch
      have h1 : ∀ x ∈ strL "<blockquote>", ¬(x = '\n') := by decide
      have h2 : ∀ x ∈ strL "</blockquote>", ¬(x = '\n') := by decide
      rw [List.mem_append] at hch
      rcases hch with hch | hch
      · exact h1 ch hch
      · rw [List.mem_append] at hch
        rcases hch with hch | hch
        · rw [List.mem_append] at hch
          rcases hch with hch | hch
          · exact hp2 ch hch
          · exact hmarker ch hch
        · exact h2 ch hch
    have hin_lt : ∀ ch ∈ (p ++ ('[' :: '!' :: (k ++ ']' :: t))), ¬(ch = '<') := by
      intro ch hch
      rw [List.mem_append] at hch
      rcases hch with hch | hch
      · exact hp3 ch hch
      · rw [List.mem_cons] at hch
        rcases hch with hch | hch
        · subst hch; decide
        · rw [List.mem_cons] at hch
          rcases hch with hch | hch
          · subst hch; decide
          · rw [List.mem_append] at hch
            rcases hch with hch | hch
            · exact kinds_no_lt k hmem ch hch
            · rw [List.mem_cons] at hch
              rcases hch with hch | hch
              · subst hch; decide
              · exact ht4 ch hch
    have hcsub : containsSub (strL "<blockquote>" ++ ((p ++ ('[' :: '!' ::
        (k ++ ']' :: t))) ++ strL "</blockquote>")) (strL "</blockquote>") = true :=
      containsSub_append_left _ _ _ (containsSub_append_left _ _ _
        (containsSub_here _ _ (isPrefixOf_refl_str _)))
    have hcs := consumeSpan_close_first (strL "</blockquote>")
      (strL "<blockquote>" ++ ((p ++ ('[' :: '!' :: (k ++ ']' :: t))) ++
        strL "</blockquote>")) [] hcsub
    have hrb := removeBqTags_wrap (p ++ ('[' :: '!' :: (k ++ ']' :: t))) hin_lt
    have htf := trim_fix_marker_concat p k t hp4 ht1 ht0
    have hheadingq : headingMatch (strL "<blockquote>" ++ ((p ++ ('[' :: '!' ::
        (k ++ ']' :: t))) ++ strL "</blockquote>")) = none := rfl
    have hhrq : hrMatch (strL "<blockquote>" ++ ((p ++ ('[' :: '!' ::
        (k ++ ']' :: t))) ++ strL "</blockquote>")) = false := rfl
    have htabq : (strL "<table>").isPrefixOf (strL "<blockquote>" ++ ((p ++ ('[' :: '!' ::
        (k ++ ']' :: t))) ++ strL "</blockquote>")) = false := rfl
    have hprq : (strL "<pre>").isPrefixOf (strL "<blockquote>" ++ ((p ++ ('[' :: '!' ::
        (k ++ ']' :: t))) ++ strL "</blockquote>")) = false := rfl
    have hulq : (strL "<ul>").isPrefixOf (strL "<blockquote>" ++ ((p ++ ('[' :: '!' ::
        (k ++ ']' :: t))) ++ strL "</blockquote>")) = false := rfl
    have holq : (strL "<ol>").isPrefixOf (strL "<blockquote>" ++ ((p ++ ('[' :: '!' ::
        (k ++ ']' :: t))) ++ strL "</blockquote>")) = false := rfl
    have hbqq : (strL "<blockquote>").isPrefixOf (strL "<blockquote>" ++ ((p ++ ('[' :: '!' ::
        (k ++ ']' :: t))) ++ strL "</blockquote>")) = true :=
      isPrefixOf_self_append _ _
    unfold splitContentIntoBlocks
    rw [splitNl_single _ hnlq]
    simp only [List.length_singleton]
    simp only [splitGoF, hheadingq, hhrq, htabq, hprq, hulq, holq, hbqq, hcs, hrb,
      htf, hhas, hpart1, if_true, Bool.false_eq_true, if_false]
    simp
/-- Witness for the amended claim C10 at a concrete input with text
before the marker. -/
theorem C10_theorem_witness :
    processCalloutContentSimple (fun _ => strL "u")
        (strL "Heads" ++ ('[' :: '!' :: (strL "tip" ++ ']' :: strL "Use it"))) 0 =
      (some (alertBlockOf (calloutCategoryOf (strL "tip")) (strL "Use it")
        (strL "Heads") (strL "u")), 1) ∧
    splitContentIntoBlocks (fun _ => 7) (fun _ => strL "u")
        (strL "<p>" ++ (strL "Heads" ++ ('[' :: '!' :: (strL "tip" ++ ']' ::
          strL "Use it"))) ++ strL "</p>") 0 =
      ([alertBlockOf (calloutCategoryOf (strL "tip")) (strL "Use it") (strL "Heads")
        (strL "u")], 1) ∧
    splitContentIntoBlocks (fun _ => 7) (fun _ => strL "u")
        (strL "<blockquote>" ++ ((strL "Heads" ++ ('[' :: '!' :: (strL "tip" ++ ']' ::
          strL "Use it"))) ++ strL "</blockquote>")) 0 =
      ([alertBlockOf (calloutCategoryOf (strL "tip")) (strL "Use it") (strL "Heads")
        (strL "u")], 1) :=
  C10_theorem (strL "Heads") (strL "tip") (strL "Use it") (fun _ => 7) (fun _ => strL "u")
    0 (by decide) (by decide) (by decide) (by decide) (by decide) (by decide) (by decide)
    (by decide) (by decide) (by decide)

/-! ## Claims about the segmenter loop -/

/-- Claim C7 (code_bug evidence): a single-line pre element loses its
entire text — the code-block collector breaks before pushing the line
containing the closing tag, so the segmenter emits a code block with an
empty body and the word hello appears in no output block, contradicting
the no-non-whitespace-loss claim. -/
theorem C7_theorem :
    splitContentIntoBlocks (fun _ => 0) (fun _ => strL "u") (strL "<pre>hello</pre>") 0 =
      ([strL "<!-- wp:code -->\n<pre class=\"wp-block-code\"><code></code></pre>\n<!-- /wp:code -->"],
        0) ∧
    containsSub
      (strL "<!-- wp:code -->\n<pre class=\"wp-block-code\"><code></code></pre>\n<!-- /wp:code -->")
      (strL "hello") = false := by
  refine ⟨by decide, by decide⟩

theorem spanGo_no_close (close : Str) (ls : List Str)
    (h : ∀ x ∈ ls, containsSub x close = false) :
    ∀ acc, spanGo close acc ls = (acc ++ spanToEnd ls, []) := by
  induction ls with
  | nil =>
    intro acc
    simp [spanGo, spanToEnd]
  | cons l ls2 ih =>
    intro acc
    simp only [spanGo, h l (by simp), Bool.false_eq_true, if_false]
    rw [ih (fun x hx => h x (by simp [hx])) (acc ++ l ++ ['\n'])]
    simp [spanToEnd, List.append_assoc]

theorem consumeSpan_no_close (close first : Str) (rest : List Str)
    (hf : containsSub first close = false)
    (h : ∀ x ∈ rest, containsSub x close = false) :
    consumeSpan close first rest = (first ++ spanToEnd rest, []) := by
  unfold consumeSpan
  rw [hf]
  simp only [Bool.false_eq_true, if_false]
  exact spanGo_no_close close rest h first

theorem preGo_no_close (ls : List Str)
    (h : ∀ x ∈ ls, containsSub x (strL "</pre>") = false) :
    preGo ls = (ls, []) := by
  induction ls with
  | nil => rfl
  | cons l ls2 ih =>
    simp only [preGo, h l (by simp), Bool.false_eq_true, if_false]
    rw [ih (fun x hx => h x (by simp [hx]))]

theorem prefix_decomp {pat l : Str} (h : pat.isPrefixOf l = true) :
    ∃ l2, l = pat ++ l2 := by
  induction pat generalizing l with
  | nil => exact ⟨l, rfl⟩
  | cons a p ih =>
    cases l with
    | nil => simp [List.isPrefixOf] at h
    | cons b l2 =>
      simp only [List.isPrefixOf, Bool.and_eq_true, beq_iff_eq] at h
      obtain ⟨rest, hr⟩ := ih h.2
      exact ⟨rest, by rw [h.1, hr]; rfl⟩

/-- Claim C8: the segmenter is total by construction (every branch of
the embedded loop is a terminating function of its input), and an
unterminated multi-line construct — an opening table, pre, ul, ol or
blockquote tag with no matching closing tag before the end of input —
degrades to capturing the consumed lines through the end of input and
still emits its block rather than failing. -/
theorem C8_theorem :
    (∀ (rid : Nat → Nat) (ruid : Nat → Str) (l : Str) (ls : List Str) (c : Nat),
      (strL "<table>").isPrefixOf l = true →
      (∀ x ∈ l :: ls, containsSub x (strL "</table>") = false) →
      splitGoF rid ruid (l :: ls).length (l :: ls) c =
        ([createWpBlock (strL "table")
          (formatTableContent (l ++ spanToEnd ls)
            (containsSub (l ++ spanToEnd ls) (strL "<thead>"))
            (containsSub (l ++ spanToEnd ls) (strL "<tfoot>"))) tableAttrStr], c)) ∧
    (∀ (rid : Nat → Nat) (ruid : Nat → Str) (l : Str) (ls : List Str) (c : Nat),
      (strL "<pre>").isPrefixOf l = true →
      (∀ x ∈ l :: ls, containsSub x (strL "</pre>") = false) →
      splitGoF rid ruid (l :: ls).length (l :: ls) c =
        ([createWpBlock (strL "code")
          (strL "<pre class=\"wp-block-code\"><code>" ++
            removePreCodeTags (List.intercalate (strL "\n") (l :: ls)) ++
            strL "</code></pre>") []], c)) ∧
    (∀ (rid : Nat → Nat) (ruid : Nat → Str) (l : Str) (ls : List Str) (c : Nat),
      (strL "<ul>").isPrefixOf l = true →
      (∀ x ∈ l :: ls, containsSub x (strL "</ul>") = false) →
      splitGoF rid ruid (l :: ls).length (l :: ls) c =
        ([createWpBlock (strL "list") (l ++ spanToEnd ls) []], c)) ∧
    (∀ (rid : Nat → Nat) (ruid : Nat → Str) (l : Str) (ls : List Str) (c : Nat),
      (strL "<ol>").isPrefixOf l = true →
      (∀ x ∈ l :: ls, containsSub x (strL "</ol>") = false) →
      splitGoF rid ruid (l :: ls).length (l :: ls) c =
        ([createWpBlock (strL "list") (l ++ spanToEnd ls)
          (strL " \x7b\"ordered\":true\x7d")], c)) ∧
    (∀ (rid : Nat → Nat) (ruid : Nat → Str) (l : Str) (ls : List Str) (c : Nat),
      (strL "<blockquote>").isPrefixOf l = true →
      (∀ x ∈ l :: ls, containsSub x (strL "</blockquote>") = false) →
      hasCalloutSyntax (trimWs (removeBqTags (l ++ spanToEnd ls))) = false →
      splitGoF rid ruid (l :: ls).length (l :: ls) c =
        ([createWpBlock (strL "quote")
          (strL "<blockquote class=\"wp-block-quote\">" ++
            trimWs (removeBqTags (l ++ spanToEnd ls)) ++ strL "</blockquote>") []], c)) := by
  refine ⟨?_, ?_, ?_, ?_, ?_⟩
  · intro rid ruid l ls c hpre hno
    obtain ⟨l2, hl⟩ := prefix_decomp hpre
    subst hl
    simp only [List.length_cons, splitGoF]
    rw [show headingMatch (strL "<table>" ++ l2) = none from rfl,
      show hrMatch (strL "<table>" ++ l2) = false from rfl,
      show (strL "<table>").isPrefixOf (strL "<table>" ++ l2) = true from
        isPrefixOf_self_append _ _,
      consumeSpan_no_close _ _ _ (hno _ (by simp)) (fun x hx => hno x (by simp [hx]))]
    simp [splitGoF]
  · intro rid ruid l ls c hpre hno
    obtain ⟨l2, hl⟩ := prefix_decomp hpre
    subst hl
    simp only [List.length_cons, splitGoF]
    rw [show headingMatch (strL "<pre>" ++ l2) = none from rfl,
      show hrMatch (strL "<pre>" ++ l2) = false from rfl,
      show (strL "<table>").isPrefixOf (strL "<pre>" ++ l2) = false from rfl,
      show (strL "<pre>").isPrefixOf (strL "<pre>" ++ l2) = true from
        isPrefixOf_self_append _ _,
      preGo_no_close _ hno]
    simp [splitGoF]
  · intro rid ruid l ls c hpre hno
    obtain ⟨l2, hl⟩ := prefix_decomp hpre
    subst hl
    simp only [List.length_cons, splitGoF]
    rw [show headingMatch (strL "<ul>" ++ l2) = none from rfl,
      show hrMatch (strL "<ul>" ++ l2) = false from rfl,
      show (strL "<table>").isPrefixOf (strL "<ul>" ++ l2) = false from rfl,
      show (strL "<pre>").isPrefixOf (strL "<ul>" ++ l2) = false from rfl,
      show (strL "<ul>").isPrefixOf (strL "<ul>" ++ l2) = true from
        isPrefixOf_self_append _ _,
      consumeSpan_no_close _ _ _ (hno _ (by simp)) (fun x hx => hno x (by simp [hx]))]
    simp [splitGoF]
  · intro rid ruid l ls c hpre hno
    obtain ⟨l2, hl⟩ := prefix_decomp hpre
    subst hl
    simp only [List.length_cons, splitGoF]
    rw [show headingMatch (strL "<ol>" ++ l2) = none from rfl,
      show hrMatch (strL "<ol>" ++ l2) = false from rfl,
      show (strL "<table>").isPrefixOf (strL "<ol>" ++ l2) = false from rfl,
      show (strL "<pre>").isPrefixOf (strL "<ol>" ++ l2) = false from rfl,
      show (strL "<ul>").isPrefixOf (strL "<ol>" ++ l2) = false from rfl,
      show (strL "<ol>").isPrefixOf (strL "<ol>" ++ l2) = true from
        isPrefixOf_self_append _ _,
      consumeSpan_no_close _ _ _ (hno _ (by simp)) (fun x hx => hno x (by simp [hx]))]
    simp [splitGoF]
  · intro rid ruid l ls c hpre hno hnc
    obtain ⟨l2, hl⟩ := prefix_decomp hpre
    subst hl
    simp only [List.length_cons, splitGoF]
    rw [show headingMatch (strL "<blockquote>" ++ l2) = none from rfl,
      show hrMatch (strL "<blockquote>" ++ l2) = false from rfl,
      show (strL "<table>").isPrefixOf (strL "<blockquote>" ++ l2) = false from rfl,
      show (strL "<pre>").isPrefixOf (strL "<blockquote>" ++ l2) = false from rfl,
      show (strL "<ul>").isPrefixOf (strL "<blockquote>" ++ l2) = false from rfl,
      show (strL "<ol>").isPrefixOf (strL "<blockquote>" ++ l2) = false from rfl,
      show (strL "<blockquote>").isPrefixOf (strL "<blockquote>" ++ l2) = true from
        isPrefixOf_self_append _ _,
      consumeSpan_no_close _ _ _ (hno _ (by simp)) (fun x hx => hno x (by simp [hx]))]
    simp only [hnc, Bool.false_eq_true, if_false]
    simp [splitGoF]

/-- Witness for claim C8 at concrete unterminated inputs, one per
construct. -/
theorem C8_theorem_witness :
    splitGoF (fun _ => 0) (fun _ => strL "u") 2 [strL "<table>", strL "<tr>"] 0 =
      ([createWpBlock (strL "table")
        (formatTableContent (strL "<table>" ++ spanToEnd [strL "<tr>"])
          (containsSub (strL "<table>" ++ spanToEnd [strL "<tr>"]) (strL "<thead>"))
          (containsSub (strL "<table>" ++ spanToEnd [strL "<tr>"]) (strL "<tfoot>")))
        tableAttrStr], 0) ∧
    splitGoF (fun _ => 0) (fun _ => strL "u") 2 [strL "<pre>", strL "x = 1"] 0 =
      ([createWpBlock (strL "code")
        (strL "<pre class=\"wp-block-code\"><code>" ++
          removePreCodeTags (List.intercalate (strL "\n") [strL "<pre>", strL "x = 1"]) ++
          strL "</code></pre>") []], 0) ∧
    splitGoF (fun _ => 0) (fun _ => strL "u") 2 [strL "<ul>", strL "<li>a</li>"] 0 =
      ([createWpBlock (strL "list") (strL "<ul>" ++ spanToEnd [strL "<li>a</li>"]) []], 0) ∧
    splitGoF (fun _ => 0) (fun _ => strL "u") 2 [strL "<ol>", strL "<li>b</li>"] 0 =
      ([createWpBlock (strL "list") (strL "<ol>" ++ spanToEnd [strL "<li>b</li>"])
        (strL " \x7b\"ordered\":true\x7d")], 0) ∧
    splitGoF (fun _ => 0) (fun _ => strL "u") 2 [strL "<blockquote>", strL "wise"] 0 =
      ([createWpBlock (strL "quote")
        (strL "<blockquote class=\"wp-block-quote\">" ++
          trimWs (removeBqTags (strL "<blockquote>" ++ spanToEnd [strL "wise"])) ++
          strL "</blockquote>") []], 0) :=
  ⟨C8_theorem.1 (fun _ => 0) (fun _ => strL "u") (strL "<table>") [strL "<tr>"] 0
      (by decide) (by decide),
   C8_theorem.2.1 (fun _ => 0) (fun _ => strL "u") (strL "<pre>") [strL "x = 1"] 0
      (by decide) (by decide),
   C8_theorem.2.2.1 (fun _ => 0) (fun _ => strL "u") (strL "<ul>") [strL "<li>a</li>"] 0
      (by decide) (by decide),
   C8_theorem.2.2.2.1 (fun _ => 0) (fun _ => strL "u") (strL "<ol>") [strL "<li>b</li>"] 0
      (by decide) (by decide),
   C8_theorem.2.2.2.2 (fun _ => 0) (fun _ => strL "u") (strL "<blockquote>") [strL "wise"]
      0 (by decide) (by decide) (by decide)⟩

/-! ## The exec loop on pre-existing blocks (claims C5 and C6) -/

theorem containsSub_prefix_false {s pat : Str} (h : containsSub s pat = false) :
    pat.isPrefixOf s = false := by
  have := containsSub_false_drop h 0
  simpa using this

theorem arrowLen_cons (c : Char) (t : Str) :
    arrowLen (c :: t) =
      (if (strL "-->").isPrefixOf (c :: t) then some 3
       else if c = '\n' then none else (arrowLen t).map (· + 1)) := by
  rw [arrowLen.eq_def]

theorem arrowLen_advance (u rest : Str) (hnl : ∀ c ∈ u, ¬(c = '\n'))
    (hna : containsSub u (strL "-->") = false) :
    arrowLen (u ++ (strL "-->" ++ rest)) = some (u.length + 3) := by
  induction u with
  | nil =>
    rw [List.nil_append, arrowLen.eq_def, isPrefixOf_self_append]
    simp
  | cons c u2 ih =>
    have hfalse : (strL "-->").isPrefixOf (c :: (u2 ++ (strL "-->" ++ rest))) = false := by
      rw [← List.cons_append]
      cases hcase : (strL "-->").isPrefixOf ((c :: u2) ++ (strL "-->" ++ rest)) with
      | false => rfl
      | true =>
        exfalso
        by_cases hlen : 3 ≤ (c :: u2).length
        · rw [prefix_long _ _ _
            (by rw [show (strL "-->").length = 3 from rfl]; exact hlen)] at hcase
          have h2 : containsSub (c :: u2) (strL "-->") = true :=
            containsSub_here _ _ hcase
          rw [h2] at hna
          cases hna
        · have hlt : (c :: u2).length < (strL "-->").length := by
            simp only [List.length_cons]
            simp only [List.length_cons, Nat.not_le] at hlen
            simpa using hlen
          obtain ⟨h1, h2⟩ := prefix_split _ _ _ hlt hcase
          cases u2 with
          | nil =>
            rw [show ((strL "-->").drop ([c] : Str).length) = strL "->" from rfl,
              show (strL "->").isPrefixOf (strL "-->" ++ rest) = false from rfl] at h2
            cases h2
          | cons d u3 =>
            have hu3 : u3 = [] := by
              simp only [List.length_cons] at hlt
              have : u3.length = 0 := by
                have h3 : (strL "-->").length = 3 := rfl
                omega
              exact List.length_eq_zero.mp this
            subst hu3
            rw [show ((strL "-->").drop ([c, d] : Str).length) = strL ">" from rfl,
              show (strL ">").isPrefixOf (strL "-->" ++ rest) = false from rfl] at h2
            cases h2
    rw [List.cons_append, arrowLen_cons, hfalse]
    simp only [Bool.false_eq_true, if_false]
    have hc : ¬(c = '\n') := hnl c (by simp)
    rw [if_neg hc]
    rw [ih (fun x hx => hnl x (by simp [hx]))
      (by
        cases hcs : containsSub u2 (strL "-->") with
        | false => rfl
        | true =>
          rw [containsSub_cons_of c u2 _ hcs] at hna
          cases hna)]
    rw [show Option.map (· + 1) (some (u2.length + 3)) =
      some (u2.length + 3 + 1) from rfl]
    congr 1

theorem closePrefix_drop_lt (n : Nat) (h1 : 1 ≤ n) (h2 : n ≤ 8) (Z : Str) :
    ((strL "<!-- /wp:").drop n).isPrefixOf ('<' :: Z) = false := by
  interval_cases n <;> rfl

theorem openPrefix_drop_lt (n : Nat) (h1 : 1 ≤ n) (h2 : n ≤ 7) (Z : Str) :
    ((strL "<!-- wp:").drop n).isPrefixOf ('<' :: Z) = false := by
  interval_cases n <;> rfl

theorem closeMarkerLen_here (u rest : Str) (hnl : ∀ c ∈ u, ¬(c = '\n'))
    (hna : containsSub u (strL "-->") = false) :
    closeMarkerLen (strL "<!-- /wp:" ++ (u ++ (strL "-->" ++ rest))) =
      some (9 + (u.length + 3)) := by
  unfold closeMarkerLen
  rw [isPrefixOf_self_append]
  rw [show ((strL "<!-- /wp:" ++ (u ++ (strL "-->" ++ rest))).drop 9) =
    u ++ (strL "-->" ++ rest) from by
      rw [show (9 : Nat) = (strL "<!-- /wp:").length from rfl, List.drop_left]]
  rw [arrowLen_advance u rest hnl hna]
  simp

theorem closeMarkerLen_none {s : Str}
    (h : (strL "<!-- /wp:").isPrefixOf s = false) : closeMarkerLen s = none := by
  unfold closeMarkerLen
  rw [h]
  simp

theorem closeScan_cons_some {c : Char} {t : Str} {n : Nat}
    (h : closeMarkerLen (c :: t) = some n) : closeScan (c :: t) = some n := by
  simp only [closeScan, h]

theorem closeScan_cons_none {c : Char} {t : Str}
    (h : closeMarkerLen (c :: t) = none) :
    closeScan (c :: t) = (closeScan t).map (· + 1) := by
  simp only [closeScan, h]

theorem closeScan_advance :
    ∀ (body u rest : Str),
    containsSub body (strL "<!-- /wp:") = false →
    (∀ c ∈ u, ¬(c = '\n')) → containsSub u (strL "-->") = false →
    closeScan (body ++ (strL "<!-- /wp:" ++ (u ++ (strL "-->" ++ rest)))) =
      some (body.length + (9 + (u.length + 3)))
  | [], u, rest, _, hnl, hna => by
    have hm := closeMarkerLen_here u rest hnl hna
    rw [show strL "<!-- /wp:" ++ (u ++ (strL "-->" ++ rest)) =
      '<' :: (strL "!-- /wp:" ++ (u ++ (strL "-->" ++ rest))) from rfl] at hm
    rw [List.nil_append, show strL "<!-- /wp:" ++ (u ++ (strL "-->" ++ rest)) =
      '<' :: (strL "!-- /wp:" ++ (u ++ (strL "-->" ++ rest))) from rfl]
    rw [closeScan_cons_some hm]
    simp
  | c :: body, u, rest, hb, hnl, hna => by
    have hb2 : containsSub body (strL "<!-- /wp:") = false := by
      cases hcs : containsSub body (strL "<!-- /wp:") with
      | false => rfl
      | true => rw [containsSub_cons_of c body _ hcs] at hb; cases hb
    have hpre : (strL "<!-- /wp:").isPrefixOf
        (c :: (body ++ (strL "<!-- /wp:" ++ (u ++ (strL "-->" ++ rest))))) = false := by
      rw [← List.cons_append]
      cases hcase : (strL "<!-- /wp:").isPrefixOf
          ((c :: body) ++ (strL "<!-- /wp:" ++ (u ++ (strL "-->" ++ rest)))) with
      | false => rfl
      | true =>
        exfalso
        by_cases hlen : 9 ≤ (c :: body).length
        · rw [prefix_long _ _ _
            (by rw [show (strL "<!-- /wp:").length = 9 from rfl]; exact hlen)] at hcase
          rw [containsSub_here _ _ hcase] at hb
          cases hb
        · have hlt : (c :: body).length < (strL "<!-- /wp:").length := by
            rw [show (strL "<!-- /wp:").length = 9 from rfl]
            omega
          obtain ⟨h1, h2⟩ := prefix_split _ _ _ hlt hcase
          rw [show strL "<!-- /wp:" ++ (u ++ (strL "-->" ++ rest)) =
            '<' :: (strL "!-- /wp:" ++ (u ++ (strL "-->" ++ rest))) from rfl] at h2
          rw [closePrefix_drop_lt (c :: body).length (by simp)
            (by
              rw [show (strL "<!-- /wp:").length = 9 from rfl] at hlt
              omega) _] at h2
          cases h2
    rw [List.cons_append, closeScan_cons_none (closeMarkerLen_none hpre)]
    rw [closeScan_advance body u rest hb2 hnl hna]
    rw [show Option.map (· + 1) (some (body.length + (9 + (u.length + 3)))) =
      some (body.length + (9 + (u.length + 3)) + 1) from rfl]
    simp only [List.length_cons]
    congr 1
    omega

theorem blockMatchLen_block (topen body u rest : Str)
    (ht1 : ∀ c ∈ topen, ¬(c = '\n')) (ht2 : containsSub topen (strL "-->") = false)
    (hb : containsSub body (strL "<!-- /wp:") = false)
    (hu1 : ∀ c ∈ u, ¬(c = '\n')) (hu2 : containsSub u (strL "-->") = false) :
    blockMatchLen (strL "<!-- wp:" ++ (topen ++ (strL "-->" ++ (body ++
      (strL "<!-- /wp:" ++ (u ++ (strL "-->" ++ rest))))))) =
      some (8 + (topen.length + 3) + (body.length + (9 + (u.length + 3)))) := by
  have hd8 : ((strL "<!-- wp:" ++ (topen ++ (strL "-->" ++ (body ++
      (strL "<!-- /wp:" ++ (u ++ (strL "-->" ++ rest))))))).drop 8) =
      topen ++ (strL "-->" ++ (body ++ (strL "<!-- /wp:" ++ (u ++
        (strL "-->" ++ rest))))) := by
    rw [show (8 : Nat) = (strL "<!-- wp:").length from rfl, List.drop_left]
  have ha : arrowLen (topen ++ (strL "-->" ++ (body ++ (strL "<!-- /wp:" ++ (u ++
      (strL "-->" ++ rest)))))) = some (topen.length + 3) :=
    arrowLen_advance topen _ ht1 ht2
  have hd2 : ((strL "<!-- wp:" ++ (topen ++ (strL "-->" ++ (body ++
      (strL "<!-- /wp:" ++ (u ++ (strL "-->" ++ rest))))))).drop
        (8 + (topen.length + 3))) =
      body ++ (strL "<!-- /wp:" ++ (u ++ (strL "-->" ++ rest))) := by
    rw [show (8 : Nat) + (topen.length + 3) =
      (strL "<!-- wp:").length + (topen.length + 3) from rfl]
    rw [List.drop_append, List.drop_append]
    rw [show (3 : Nat) = (strL "-->").length from rfl, List.drop_left]
  have hc : closeScan (body ++ (strL "<!-- /wp:" ++ (u ++ (strL "-->" ++ rest)))) =
      some (body.length + (9 + (u.length + 3))) :=
    closeScan_advance body u rest hb hu1 hu2
  unfold blockMatchLen
  simp only [isPrefixOf_self_append, eq_self_iff_true, if_true, hd8, ha, hd2, hc]

theorem blockMatchLen_none {s : Str}
    (h : (strL "<!-- wp:").isPrefixOf s = false) : blockMatchLen s = none := by
  unfold blockMatchLen
  rw [h]
  simp

theorem findBlockMatch_cons_some {c : Char} {t : Str} {n : Nat}
    (h : blockMatchLen (c :: t) = some n) :
    findBlockMatch (c :: t) = some (0, n) := by
  simp only [findBlockMatch, h]

theorem findBlockMatch_cons_none {c : Char} {t : Str}
    (h : blockMatchLen (c :: t) = none) :
    findBlockMatch (c :: t) = (findBlockMatch t).map (fun p => (p.1 + 1, p.2)) := by
  simp only [findBlockMatch, h]

theorem wfShape_len (topen body u : Str) :
    8 + (topen.length + 3) + (body.length + (9 + (u.length + 3))) =
      (strL "<!-- wp:" ++ topen ++ strL "-->" ++ body ++ strL "<!-- /wp:" ++ u ++
        strL "-->").length := by
  simp only [List.length_append, show (strL "<!-- wp:").length = 8 from rfl,
    show (strL "-->").length = 3 from rfl, show (strL "<!-- /wp:").length = 9 from rfl]
  omega

theorem findBlockMatch_advance :
    ∀ (r0 B Z : Str), RawSafe r0 → WfBlock B →
    findBlockMatch (r0 ++ (B ++ Z)) = some (r0.length, B.length)
  | [], B, Z, _, hB => by
    obtain ⟨topen, body, u, hBeq, ht1, ht2, hb, hu1, hu2⟩ := hB
    subst hBeq
    rw [List.nil_append]
    have hkey : (strL "<!-- wp:" ++ topen ++ strL "-->" ++ body ++ strL "<!-- /wp:" ++
        u ++ strL "-->") ++ Z =
        strL "<!-- wp:" ++ (topen ++ (strL "-->" ++ (body ++ (strL "<!-- /wp:" ++
          (u ++ (strL "-->" ++ Z)))))) := by
      simp only [List.append_assoc]
    rw [hkey]
    have hm := blockMatchLen_block topen body u Z ht1 ht2 hb hu1 hu2
    rw [show strL "<!-- wp:" ++ (topen ++ (strL "-->" ++ (body ++ (strL "<!-- /wp:" ++
      (u ++ (strL "-->" ++ Z)))))) =
      '<' :: (strL "!-- wp:" ++ (topen ++ (strL "-->" ++ (body ++ (strL "<!-- /wp:" ++
        (u ++ (strL "-->" ++ Z))))))) from rfl] at hm ⊢
    rw [findBlockMatch_cons_some hm, wfShape_len topen body u]
    simp
  | c :: r0, B, Z, hr, hB => by
    obtain ⟨topen, body, u, hBeq, ht1, ht2, hb, hu1, hu2⟩ := hB
    have hr' : containsSub (c :: r0) (strL "<!-- wp:") = false := hr
    have hr2 : RawSafe r0 := by
      cases hcs : containsSub r0 (strL "<!-- wp:") with
      | false => exact hcs
      | true => rw [containsSub_cons_of c r0 _ hcs] at hr'; cases hr'
    have hBZ : B ++ Z = '<' :: (strL "!-- wp:" ++ (topen ++ (strL "-->" ++ (body ++
        (strL "<!-- /wp:" ++ (u ++ (strL "-->" ++ Z))))))) := by
      rw [hBeq]
      simp only [List.append_assoc]
      rfl
    have hpre : (strL "<!-- wp:").isPrefixOf (c :: (r0 ++ (B ++ Z))) = false := by
      rw [← List.cons_append]
      cases hcase : (strL "<!-- wp:").isPrefixOf ((c :: r0) ++ (B ++ Z)) with
      | false => rfl
      | true =>
        exfalso
        by_cases hlen : 8 ≤ (c :: r0).length
        · rw [prefix_long _ _ _
            (by rw [show (strL "<!-- wp:").length = 8 from rfl]; exact hlen)] at hcase
          rw [containsSub_here _ _ hcase] at hr'
          cases hr'
        · have hlt : (c :: r0).length < (strL "<!-- wp:").length := by
            rw [show (strL "<!-- wp:").length = 8 from rfl]
            omega
          obtain ⟨h1, h2⟩ := prefix_split _ _ _ hlt hcase
          rw [hBZ] at h2
          rw [openPrefix_drop_lt (c :: r0).length (by simp)
            (by
              rw [show (strL "<!-- wp:").length = 8 from rfl] at hlt
              omega) _] at h2
          cases h2
    rw [List.cons_append, findBlockMatch_cons_none (blockMatchLen_none hpre)]
    rw [findBlockMatch_advance r0 B Z hr2 ⟨topen, body, u, hBeq, ht1, ht2, hb, hu1, hu2⟩]
    rw [show Option.map (fun p : Nat × Nat => (p.1 + 1, p.2))
      (some (r0.length, B.length)) = some (r0.length + 1, B.length) from rfl]
    simp only [List.length_cons]

theorem findBlockMatch_none : ∀ {r : Str}, RawSafe r → findBlockMatch r = none
  | [], _ => rfl
  | c :: t, hr => by
    have hr' : containsSub (c :: t) (strL "<!-- wp:") = false := hr
    have ht : RawSafe t := by
      cases hcs : containsSub t (strL "<!-- wp:") with
      | false => exact hcs
      | true =>
        have := containsSub_cons_of c t _ hcs
        rw [this] at hr'
        cases hr'
    rw [findBlockMatch_cons_none (blockMatchLen_none (containsSub_prefix_false hr'))]
    rw [findBlockMatch_none ht]
    rfl

theorem execPiecesF_raw (fuel : Nat) {r : Str} (hr : RawSafe r) :
    execPiecesF fuel r = ([], r) := by
  cases fuel with
  | zero => rfl
  | succ f =>
    simp only [execPiecesF, findBlockMatch_none hr]

theorem piecesOf_cons (r0 B r : Str) (ps : List (Str × Str)) :
    piecesOf r0 ((B, r) :: ps) = ((r0, B) :: (piecesOf r ps).1, (piecesOf r ps).2) :=
  rfl

theorem execPiecesF_assemble :
    ∀ (ps : List (Str × Str)) (fuel : Nat) (r0 : Str), ps.length ≤ fuel →
    RawSafe r0 → (∀ p ∈ ps, WfBlock p.1 ∧ RawSafe p.2) →
    execPiecesF fuel (assembleSegs r0 ps) = piecesOf r0 ps
  | [], fuel, r0, _, hr0, _ => execPiecesF_raw fuel hr0
  | (B, r) :: ps, fuel, r0, hlen, hr0, hall => by
    obtain ⟨f, rfl⟩ : ∃ f, fuel = f + 1 := by
      cases fuel with
      | zero =>
        exfalso
        simp only [List.length_cons] at hlen
        omega
      | succ f => exact ⟨f, rfl⟩
    obtain ⟨hB, hrr⟩ := hall (B, r) (by simp)
    have hassm : assembleSegs r0 ((B, r) :: ps) =
        r0 ++ (B ++ assembleSegs r ps) := by
      simp only [assembleSegs, List.append_assoc]
    have hfind := findBlockMatch_advance r0 B (assembleSegs r ps) hr0 hB
    have ht1 : (r0 ++ (B ++ assembleSegs r ps)).take r0.length = r0 :=
      List.take_left _ _
    have hd1 : (r0 ++ (B ++ assembleSegs r ps)).drop r0.length =
        B ++ assembleSegs r ps := List.drop_left _ _
    have ht2 : (B ++ assembleSegs r ps).take B.length = B := List.take_left _ _
    have hd2 : (r0 ++ (B ++ assembleSegs r ps)).drop (r0.length + B.length) =
        assembleSegs r ps := by
      rw [List.drop_append, List.drop_left]
    have hrec := execPiecesF_assemble ps f r
      (by simp only [List.length_cons] at hlen; omega) hrr
      (fun p hp => hall p (by simp [hp]))
    rw [hassm]
    cases hP : piecesOf r ps with
    | mk q tr =>
      rw [hP] at hrec
      simp only [execPiecesF, hfind, ht1, hd1, ht2, hd2, hrec, piecesOf_cons, hP]

theorem convertPiecesGo_piecesOf (rid : Nat → Nat) (ruid : Nat → Str) :
    ∀ (ps : List (Str × Str)) (r0 : Str) (c : Nat),
    convertPiecesGo rid ruid (piecesOf r0 ps).1 (piecesOf r0 ps).2 c =
      interleaveExpected rid ruid r0 ps c
  | [], r0, c => rfl
  | (B, r) :: ps, r0, c => by
    rw [piecesOf_cons]
    cases hg : gapBlocksOf rid ruid r0 c with
    | mk gbs c2 =>
      have ih := convertPiecesGo_piecesOf rid ruid ps r c2
      cases hI : interleaveExpected rid ruid r ps c2 with
      | mk rest c3 =>
        rw [hI] at ih
        cases hP : piecesOf r ps with
        | mk q tr =>
          rw [hP] at ih
          simp only [convertPiecesGo, interleaveExpected, hg, hP, ih, hI]

theorem wfBlock_len_pos {B : Str} (hB : WfBlock B) : 1 ≤ B.length := by
  obtain ⟨topen, body, u, hBeq, -, -, -, -, -⟩ := hB
  subst hBeq
  rw [← wfShape_len]
  omega

theorem assembleSegs_len :
    ∀ (ps : List (Str × Str)) (r0 : Str), (∀ p ∈ ps, WfBlock p.1) →
    ps.length ≤ (assembleSegs r0 ps).length
  | [], _, _ => Nat.zero_le _
  | (B, r) :: ps, r0, h => by
    have hB : 1 ≤ B.length := wfBlock_len_pos (h (B, r) (by simp))
    have ih := assembleSegs_len ps r (fun p hp => h p (by simp [hp]))
    simp only [assembleSegs, List.length_cons, List.length_append]
    omega

theorem convertList_assemble (rid : Nat → Nat) (ruid : Nat → Str) (r0 : Str)
    (ps : List (Str × Str)) (c : Nat) (hps : ps ≠ []) (hr0 : RawSafe r0)
    (hall : ∀ p ∈ ps, WfBlock p.1 ∧ RawSafe p.2) :
    convertToWordPressBlocksList rid ruid (assembleSegs r0 ps) c =
      interleaveExpected rid ruid r0 ps c := by
  cases ps with
  | nil => exact absurd rfl hps
  | cons p ps2 =>
    obtain ⟨B, r⟩ := p
    have hexec : execPieces (assembleSegs r0 ((B, r) :: ps2)) =
        piecesOf r0 ((B, r) :: ps2) := by
      unfold execPieces
      exact execPiecesF_assemble ((B, r) :: ps2) _ r0
        (le_trans (assembleSegs_len _ r0 (fun p hp => (hall p hp).1)) (Nat.le_succ _))
        hr0 hall
    unfold convertToWordPressBlocksList
    rw [hexec]
    exact convertPiecesGo_piecesOf rid ruid ((B, r) :: ps2) r0 c

theorem gapBlocksOf_empty (rid : Nat → Nat) (ruid : Nat → Str) {r : Str} (c : Nat)
    (h : trimWs r = []) : gapBlocksOf rid ruid r c = ([], c) := by
  unfold gapBlocksOf
  rw [h]
  rfl

theorem interPs_sound :
    ∀ (bs : List Str), (∀ b ∈ bs, WfBlock b) →
    ∀ p ∈ interPs bs, WfBlock p.1 ∧ RawSafe p.2
  | [], _, p, hp => by simp [interPs] at hp
  | [b], h, p, hp => by
    simp only [interPs, List.mem_singleton] at hp
    subst hp
    exact ⟨h b (by simp), (by decide : containsSub ([] : Str) (strL "<!-- wp:") = false)⟩
  | b :: b2 :: bs, h, p, hp => by
    rw [show interPs (b :: b2 :: bs) = (b, strL "\n\n") :: interPs (b2 :: bs)
      from rfl] at hp
    cases hp with
    | head => exact ⟨h b (by simp), (by decide : containsSub (strL "\n\n") (strL "<!-- wp:") = false)⟩
    | tail _ hp2 =>
      exact interPs_sound (b2 :: bs) (fun x hx => h x (by simp [hx])) p hp2

theorem interPs_ne : ∀ (bs : List Str), bs ≠ [] → interPs bs ≠ []
  | [], h => absurd rfl h
  | [b], _ => by simp [interPs]
  | b :: b2 :: bs, _ => by
    rw [show interPs (b :: b2 :: bs) = (b, strL "\n\n") :: interPs (b2 :: bs)
      from rfl]
    simp

theorem assembleSegs_interPs :
    ∀ (bs : List Str) (r : Str), bs ≠ [] →
    assembleSegs r (interPs bs) = r ++ List.intercalate (strL "\n\n") bs
  | [], _, h => absurd rfl h
  | [b], r, _ => by
    rw [show interPs [b] = [(b, ([] : Str))] from rfl]
    rw [show assembleSegs r [(b, ([] : Str))] =
      r ++ b ++ assembleSegs ([] : Str) [] from rfl]
    rw [show assembleSegs ([] : Str) [] = ([] : Str) from rfl]
    rw [show List.intercalate (strL "\n\n") [b] = b from by
      simp [List.intercalate, List.intersperse]]
    rw [List.append_nil]
  | b :: b2 :: bs, r, _ => by
    rw [show interPs (b :: b2 :: bs) = (b, strL "\n\n") :: interPs (b2 :: bs)
      from rfl]
    rw [show assembleSegs r ((b, strL "\n\n") :: interPs (b2 :: bs)) =
      r ++ b ++ assembleSegs (strL "\n\n") (interPs (b2 :: bs)) from rfl]
    rw [assembleSegs_interPs (b2 :: bs) (strL "\n\n") (by simp)]
    rw [show List.intercalate (strL "\n\n") (b :: b2 :: bs) =
      b ++ (strL "\n\n" ++ List.intercalate (strL "\n\n") (b2 :: bs)) from rfl]
    simp only [List.append_assoc]

theorem interleaveExpected_interPs (rid : Nat → Nat) (ruid : Nat → Str) :
    ∀ (bs : List Str) (r : Str), trimWs r = [] → ∀ c : Nat,
    interleaveExpected rid ruid r (interPs bs) c = (bs, c)
  | [], r, hr, c => by
    rw [show interPs [] = ([] : List (Str × Str)) from rfl]
    show gapBlocksOf rid ruid r c = ([], c)
    exact gapBlocksOf_empty rid ruid c hr
  | [b], r, hr, c => by
    rw [show interPs [b] = [(b, ([] : Str))] from rfl]
    simp only [interleaveExpected, gapBlocksOf_empty rid ruid c hr,
      gapBlocksOf_empty rid ruid c (show trimWs [] = [] from rfl)]
    simp
  | b :: b2 :: bs, r, hr, c => by
    rw [show interPs (b :: b2 :: bs) = (b, strL "\n\n") :: interPs (b2 :: bs)
      from rfl]
    have ih := interleaveExpected_interPs rid ruid (b2 :: bs) (strL "\n\n")
      (by decide) c
    simp only [interleaveExpected, gapBlocksOf_empty rid ruid c hr, ih]
    simp

/-- C5: re-segmenting an input that consists entirely of pre-existing
target-format blocks joined by blank lines (every segment well formed, no
raw regions) is the identity transform: the converter returns the same
sequence of preserved blocks, verbatim and in the same order, with the
counter of the random source untouched. -/
theorem C5_theorem (rid : Nat → Nat) (ruid : Nat → Str) (bs : List Str) (c : Nat)
    (hbs : bs ≠ []) (h : ∀ b ∈ bs, WfBlock b) :
    convertToWordPressBlocksList rid ruid (List.intercalate (strL "\n\n") bs) c =
      (bs, c) := by
  have h1 := convertList_assemble rid ruid [] (interPs bs) c (interPs_ne bs hbs)
    (by decide : containsSub ([] : Str) (strL "<!-- wp:") = false)
    (interPs_sound bs h)
  rw [assembleSegs_interPs bs [] hbs, List.nil_append] at h1
  rw [h1]
  exact interleaveExpected_interPs rid ruid bs [] rfl c

theorem C5_theorem_witness :
    convertToWordPressBlocksList (fun _ => 0) (fun _ => [])
      (List.intercalate (strL "\n\n")
        [strL "<!-- wp:quote -->X<!-- /wp:quote -->",
         strL "<!-- wp:code -->Y<!-- /wp:code -->"]) 0 =
      ([strL "<!-- wp:quote -->X<!-- /wp:quote -->",
        strL "<!-- wp:code -->Y<!-- /wp:code -->"], 0) :=
  C5_theorem (fun _ => 0) (fun _ => []) _ 0 (by simp)
    (fun b hb => by
      cases hb with
      | head =>
        exact ⟨strL "quote ", strL "X", strL "quote ", rfl, by decide, by decide,
          by decide, by decide, by decide⟩
      | tail _ hb2 =>
        cases hb2 with
        | head =>
          exact ⟨strL "code ", strL "Y", strL "code ", rfl, by decide, by decide,
            by decide, by decide, by decide⟩
        | tail _ hb3 => cases hb3)

/-- C6: on an input assembled from raw regions alternating with
pre-existing well-formed blocks, the converter emits, for each segment in
document order, the blocks segmented out of the raw region followed by the
preserved block kept verbatim — preserved and synthesized blocks are
strictly interleaved by source position, never reordered or grouped. -/
theorem C6_theorem (rid : Nat → Nat) (ruid : Nat → Str) (r0 : Str)
    (ps : List (Str × Str)) (c : Nat) (hps : ps ≠ []) (hr0 : RawSafe r0)
    (hall : ∀ p ∈ ps, WfBlock p.1 ∧ RawSafe p.2) :
    convertToWordPressBlocksList rid ruid (assembleSegs r0 ps) c =
      interleaveExpected rid ruid r0 ps c :=
  convertList_assemble rid ruid r0 ps c hps hr0 hall

theorem C6_theorem_witness :
    convertToWordPressBlocksList (fun _ => 0) (fun _ => [])
      (assembleSegs []
        [(strL "<!-- wp:quote -->X<!-- /wp:quote -->", strL "\n<p>Y</p>")]) 0 =
      interleaveExpected (fun _ => 0) (fun _ => [])
        [] [(strL "<!-- wp:quote -->X<!-- /wp:quote -->", strL "\n<p>Y</p>")] 0 ∧
    (interleaveExpected (fun _ => 0) (fun _ => [])
        [] [(strL "<!-- wp:quote -->X<!-- /wp:quote -->", strL "\n<p>Y</p>")] 0).1 =
      [strL "<!-- wp:quote -->X<!-- /wp:quote -->",
       strL "<!-- wp:paragraph -->\n<p>Y</p>\n<!-- /wp:paragraph -->"] :=
  ⟨C6_theorem (fun _ => 0) (fun _ => []) [] _ 0 (by simp)
    (by decide : containsSub ([] : Str) (strL "<!-- wp:") = false)
    (fun p hp => by
      cases hp with
      | head =>
        exact ⟨⟨strL "quote ", strL "X", strL "quote ", rfl, by decide, by decide,
          by decide, by decide, by decide⟩,
          (by decide : containsSub (strL "\n<p>Y</p>") (strL "<!-- wp:") = false)⟩
      | tail _ h2 => cases h2),
   by decide⟩

/-! ## Determinism up to the random source (claim C9) -/

theorem alertBlock_is_alert (content attrs : Str) :
    isAlertBlock (createWpBlock (strL "mediaron/alerts-dlx-chakra") content attrs) = true := by
  unfold isAlertBlock createWpBlock
  rw [show (strL "<!-- wp:mediaron/alerts-dlx-chakra") =
    strL "<!-- wp:" ++ strL "mediaron/alerts-dlx-chakra" from rfl]
  simp only [List.append_assoc]
  rw [← List.append_assoc (strL "<!-- wp:")]
  exact isPrefixOf_self_append _ _

theorem imageBlock_is_image (content attrs : Str) :
    isImageBlock (createWpBlock (strL "image") content attrs) = true := by
  unfold isImageBlock createWpBlock
  rw [show (strL "<!-- wp:image") = strL "<!-- wp:" ++ strL "image" from rfl]
  simp only [List.append_assoc]
  rw [← List.append_assoc (strL "<!-- wp:")]
  exact isPrefixOf_self_append _ _

theorem processCallout_some_alert (ruid : Nat → Str) (s : Str) (c : Nat)
    (h : hasCalloutSyntax s = true) :
    ∃ b, processCalloutContentSimple ruid s c = (some b, c + 1) ∧
      isAlertBlock b = true := by
  unfold hasCalloutSyntax at h
  obtain ⟨⟨pos, k⟩, hsearch⟩ : ∃ pk, calloutSearch s = some pk := by
    cases hcs : calloutSearch s with
    | none => rw [hcs] at h; cases h
    | some pk => exact ⟨pk, rfl⟩
  unfold processCalloutContentSimple
  rw [hsearch]
  exact ⟨_, rfl, alertBlock_is_alert _ _⟩

/-- Counterexample to claim C9: the image-only paragraph branch embeds
a value drawn from the random source in the block markup, so two runs
with different draws produce different bytes for the same input. -/
theorem C9_counterexample :
    (splitContentIntoBlocks (fun _ => 0) (fun _ => strL "u")
      (strL "<p><img src=\"a.png\" alt=\"\"></p>") 0).1 ≠
    (splitContentIntoBlocks (fun _ => 1) (fun _ => strL "u")
      (strL "<p><img src=\"a.png\" alt=\"\"></p>") 0).1 := by decide

/-- Claim C9 as amended: the segmentation is deterministic up to the
random source — for every input and any two random streams and
counters, the two runs produce the same number of blocks, in the same
order, with every pair of corresponding blocks byte-identical except
that image blocks and alert blocks (the two kinds embedding a randomly
drawn id) may differ only against blocks of the same kind. -/
theorem C9_theorem (fuel : Nat) (lines : List Str) (c1 c2 : Nat)
    (rid1 rid2 : Nat → Nat) (ruid1 ruid2 : Nat → Str) :
    List.Forall₂ blockAgrees (splitGoF rid1 ruid1 fuel lines c1).1
      (splitGoF rid2 ruid2 fuel lines c2).1 := by
  induction fuel generalizing lines c1 c2 with
  | zero =>
    cases lines with
    | nil => exact List.Forall₂.nil
    | cons l ls => exact List.Forall₂.nil
  | succ fuel ih =>
    cases lines with
    | nil => exact List.Forall₂.nil
    | cons l ls =>
      simp only [splitGoF]
      cases hhm : headingMatch l with
      | some pr =>
        obtain ⟨d, content⟩ := pr
        simp only [hhm]
        exact List.Forall₂.cons (Or.inl rfl) (ih ls c1 c2)
      | none =>
        simp only [hhm]
        cases hhr : hrMatch l with
        | true =>
          simp only [hhr, if_true]
          exact List.Forall₂.cons (Or.inl rfl) (ih ls c1 c2)
        | false =>
          simp only [hhr, Bool.false_eq_true, if_false]
          cases htab : (strL "<table>").isPrefixOf l with
          | true =>
            simp only [htab, if_true]
            exact List.Forall₂.cons (Or.inl rfl) (ih _ c1 c2)
          | false =>
            simp only [htab, Bool.false_eq_true, if_false]
            cases hpr : (strL "<pre>").isPrefixOf l with
            | true =>
              simp only [hpr, if_true]
              exact List.Forall₂.cons (Or.inl rfl) (ih _ c1 c2)
            | false =>
              simp only [hpr, Bool.false_eq_true, if_false]
              cases hul : (strL "<ul>").isPrefixOf l with
              | true =>
                simp only [hul, if_true]
                exact List.Forall₂.cons (Or.inl rfl) (ih _ c1 c2)
              | false =>
                simp only [hul, Bool.false_eq_true, if_false]
                cases hol : (strL "<ol>").isPrefixOf l with
                | true =>
                  simp only [hol, if_true]
                  exact List.Forall₂.cons (Or.inl rfl) (ih _ c1 c2)
                | false =>
                  simp only [hol, Bool.false_eq_true, if_false]
                  cases hbq : (strL "<blockquote>").isPrefixOf l with
                  | true =>
                    simp only [hbq, if_true]
                    cases hhc : hasCalloutSyntax (trimWs (removeBqTags
                        (consumeSpan (strL "</blockquote>") l ls).1)) with
                    | true =>
                      simp only [hhc, if_true]
                      obtain ⟨b1, hb1, ha1⟩ := processCallout_some_alert ruid1 _ c1 hhc
                      obtain ⟨b2, hb2, ha2⟩ := processCallout_some_alert ruid2 _ c2 hhc
                      rw [hb1, hb2]
                      exact List.Forall₂.cons (Or.inr (Or.inr ⟨ha1, ha2⟩))
                        (ih _ (c1 + 1) (c2 + 1))
                    | false =>
                      simp only [hhc, Bool.false_eq_true, if_false]
                      exact List.Forall₂.cons (Or.inl rfl) (ih _ c1 c2)
                  | false =>
                    simp only [hbq, Bool.false_eq_true, if_false]
                    cases hpm : paraMatch l with
                    | some content =>
                      simp only [hpm]
                      cases him : imgTagMatch content with
                      | some imgAttrs =>
                        simp only [him]
                        cases hsrc : attrCapture (strL "src=\"") imgAttrs with
                        | some imgSrc =>
                          simp only [hsrc]
                          exact List.Forall₂.cons
                            (Or.inr (Or.inl ⟨imageBlock_is_image _ _,
                              imageBlock_is_image _ _⟩))
                            (ih ls (c1 + 1) (c2 + 1))
                        | none =>
                          simp only [hsrc]
                          cases hhc2 : hasCalloutSyntax content with
                          | true =>
                            simp only [paragraphBranch, hhc2, if_true]
                            obtain ⟨b1, hb1, ha1⟩ :=
                              processCallout_some_alert ruid1 content c1 hhc2
                            obtain ⟨b2, hb2, ha2⟩ :=
                              processCallout_some_alert ruid2 content c2 hhc2
                            rw [hb1, hb2]
                            exact List.Forall₂.cons (Or.inr (Or.inr ⟨ha1, ha2⟩))
                              (ih ls (c1 + 1) (c2 + 1))
                          | false =>
                            simp only [paragraphBranch, hhc2, Bool.false_eq_true,
                              if_false]
                            exact List.Forall₂.cons (Or.inl rfl) (ih ls c1 c2)
                      | none =>
                        simp only [him]
                        cases hhc2 : hasCalloutSyntax content with
                        | true =>
                          simp only [paragraphBranch, hhc2, if_true]
                          obtain ⟨b1, hb1, ha1⟩ :=
                            processCallout_some_alert ruid1 content c1 hhc2
                          obtain ⟨b2, hb2, ha2⟩ :=
                            processCallout_some_alert ruid2 content c2 hhc2
                          rw [hb1, hb2]
                          exact List.Forall₂.cons (Or.inr (Or.inr ⟨ha1, ha2⟩))
                            (ih ls (c1 + 1) (c2 + 1))
                        | false =>
                          simp only [paragraphBranch, hhc2, Bool.false_eq_true,
                            if_false]
                          exact List.Forall₂.cons (Or.inl rfl) (ih ls c1 c2)
                    | none =>
                      simp only [hpm]
                      cases hbr : brMatch l with
                      | true =>
                        simp only [hbr, if_true]
                        exact List.Forall₂.cons (Or.inl rfl) (ih ls c1 c2)
                      | false =>
                        simp only [hbr, Bool.false_eq_true, if_false]
                        cases hres : (trimWs (stripDisallowedTags l)).isEmpty with
                        | true =>
                          simp only [hres, if_true]
                          exact ih ls c1 c2
                        | false =>
                          simp only [hres, Bool.false_eq_true, if_false]
                          exact List.Forall₂.cons (Or.inl rfl) (ih ls c1 c2)

end ObsidianWp
